import Mathlib

/-!
Verification of the combinatorial core of the `matchpy`/`patternmatcher`
term-rewriting engine (files `matchpy/utils.py` and
`patternmatcher/functions.py`).

Conventions of the embedding:
* Python integers are `Int`; Python `//` and `%` (floor division and floor
  modulus) are `Int.fdiv` and `Int.fmod`; `math.gcd` is `Int.gcd`.
* Python generators are embedded by their denotation: the finite list of
  values produced by exhausting the generator.
* `while` loops and recursion whose termination depends on runtime values
  are embedded with an explicit fuel argument that is structurally
  decreasing; the callers pass a fuel value that is provably sufficient, so
  the fuel-indexed function agrees with the loop on all reachable inputs.
* Python exceptions are embedded with `Except PyErr`.
-/

/-- The Python exceptions raised by the translated code. -/
inductive PyErr where
  | valueError : PyErr
  | zeroDivisionError : PyErr
  | indexError : PyErr
  | keyError : PyErr
deriving DecidableEq

/-- Loop body of `extended_euclid` from `matchpy/utils.py`: the recursion
`x0, y0, d = extended_euclid(b, a % b); x, y = y0, x0 - (a // b) * y0`,
with fuel for the recursion depth (the caller passes `b.natAbs`, which is
sufficient because `|a mod b|` strictly decreases). -/
def euclidGo : Nat → Int → Int → Int × Int × Int
  | 0, a, _ => (1, 0, a)
  | fuel + 1, a, b =>
      if b = 0 then (1, 0, a)
      else
        match euclidGo fuel b (a.fmod b) with
        | (x0, y0, d) => (y0, x0 - (a.fdiv b) * y0, d)

/-- `extended_euclid(a, b)` from `matchpy/utils.py`. -/
def extended_euclid (a b : Int) : Int × Int × Int :=
  euclidGo b.natAbs a b

/-- The first loop of `base_solution_linear`
(`if x <= 0: while y >= 0: if x >= 0: yield (x, y); x += b; y -= a`),
with fuel; the caller passes `y.toNat + 1`, which is sufficient since the
loop decreases `y` by `a ≥ 1` each iteration. -/
def walkUpF : Nat → Int → Int → Int → Int → List (Int × Int)
  | 0, _, _, _, _ => []
  | fuel + 1, a, b, x, y =>
      if 0 ≤ y then
        (if 0 ≤ x then [(x, y)] else []) ++ walkUpF fuel a b (x + b) (y - a)
      else []

/-- The second loop of `base_solution_linear`
(`else: while x >= 0: if y >= 0: yield (x, y); x -= b; y += a`), with fuel;
the caller passes `x.toNat + 1`. -/
def walkDownF : Nat → Int → Int → Int → Int → List (Int × Int)
  | 0, _, _, _, _ => []
  | fuel + 1, a, b, x, y =>
      if 0 ≤ x then
        (if 0 ≤ y then [(x, y)] else []) ++ walkDownF fuel a b (x - b) (y + a)
      else []

/-- `base_solution_linear(a, b, c)` from `matchpy/utils.py`: yields the
non-negative solutions of `a*x + b*y = c`.  Raises `ValueError` when
`a <= 0 or b <= 0`; otherwise normalizes by `d = gcd(a, gcd(b, c))`,
yields `(0, 0)` when the normalized `c` is zero, and otherwise walks the
one-parameter solution family starting from the Bezout base solution. -/
def base_solution_linear (a b c : Int) : Except PyErr (List (Int × Int)) :=
  if a ≤ 0 ∨ b ≤ 0 then .error .valueError
  else
    let d : Int := Int.gcd a (Int.gcd b c)
    let a1 := a.fdiv d
    let b1 := b.fdiv d
    let c1 := c.fdiv d
    if c1 = 0 then .ok [(0, 0)]
    else
      match extended_euclid a1 b1 with
      | (x0, y0, g) =>
        if c1.fmod g ≠ 0 then .ok []
        else
          let x := c1 * x0
          let y := c1 * y0
          if x ≤ 0 then .ok (walkUpF (y.toNat + 1) a1 b1 x y)
          else .ok (walkDownF (x.toNat + 1) a1 b1 x y)

/-- `solve_linear_diop(total, *coeffs)` from `matchpy/utils.py`, with fuel
for the recursion on the number of coefficients (the caller passes
`coeffs.length`, which is sufficient since each recursive call drops one
coefficient).  The process-wide memoization cache of the source is
transparent to callers and is not modelled.  The one-coefficient branch
evaluates `total % coeffs[0]`, which in Python raises `ZeroDivisionError`
when the coefficient is zero. -/
def solveGo : Nat → Int → List Int → Except PyErr (List (List Int))
  | _, total, [] => .ok (if total = 0 then [[]] else [])
  | _, total, [c] =>
      if c = 0 then .error .zeroDivisionError
      else .ok (if total.fmod c = 0 then [[total.fdiv c]] else [])
  | _, total, [a, b] =>
      (base_solution_linear a b total).map (fun l => l.map (fun p => [p.1, p.2]))
  | 0, _, _ :: _ :: _ :: _ => .ok []
  | fuel + 1, total, c0 :: c1 :: c2 :: rest =>
      let g : Int := rest.foldl (fun r c => (Int.gcd r c : Int)) (Int.gcd c1 c2)
      match base_solution_linear c0 g total with
      | .error e => .error e
      | .ok base =>
          let newCoeffs := (c1 :: c2 :: rest).map (fun c => c.fdiv g)
          base.foldl
            (fun acc p =>
              match acc with
              | .error e => .error e
              | .ok done =>
                  match solveGo fuel p.2 newCoeffs with
                  | .error e => .error e
                  | .ok sols => .ok (done ++ sols.map (fun s => p.1 :: s)))
            (.ok [])

/-- `solve_linear_diop(total, *coeffs)` from `matchpy/utils.py`. -/
def solve_linear_diop (total : Int) (coeffs : List Int) :
    Except PyErr (List (List Int)) :=
  solveGo coeffs.length total coeffs

/-- The recursion of `integer_partition_vector_iter` for `parts ≥ 0`,
indexed by the natural number `parts` (the source recurses on the Python
integer `parts`, decreasing it by one; for `parts < 0` the wrapper below
yields nothing, exactly as the source's first guard). -/
def ipviGo : Nat → Int → List (List Int)
  | 0, total => if total = 0 then [[]] else []
  | 1, total => [[total]]
  | parts + 2, total =>
      (List.range (total + 1).toNat).flatMap
        (fun i => (ipviGo (parts + 1) (total - i)).map (fun v => (i : Int) :: v))

/-- `integer_partition_vector_iter(total, parts)` from `matchpy/utils.py`. -/
def integer_partition_vector_iter (total parts : Int) : List (List Int) :=
  if parts < 0 then [] else ipviGo parts.toNat total

/-- Weighted sum `c₁x₁ + ⋯ + cₙxₙ` of a coefficient list and a solution
vector. -/
def dotProd (cs xs : List Int) : Int :=
  (List.zipWith (fun c x => c * x) cs xs).sum

/-! ### Correctness of `extended_euclid` -/

theorem gcd_emod_rec (a b : Int) : Int.gcd b (a % b) = Int.gcd a b := by
  apply Nat.dvd_antisymm
  · rw [← Int.natCast_dvd_natCast]
    apply Int.dvd_gcd
    · have h1 : (Int.gcd b (a % b) : Int) ∣ b := Int.gcd_dvd_left
      have h2 : (Int.gcd b (a % b) : Int) ∣ a % b := Int.gcd_dvd_right
      have := Int.emod_add_ediv a b
      calc (Int.gcd b (a % b) : Int) ∣ a % b + b * (a / b) :=
            dvd_add h2 (Dvd.dvd.mul_right h1 _)
        _ = a := this
    · exact Int.gcd_dvd_left
  · rw [← Int.natCast_dvd_natCast]
    apply Int.dvd_gcd
    · exact Int.gcd_dvd_right
    · have h1 : (Int.gcd a b : Int) ∣ a := Int.gcd_dvd_left
      have h2 : (Int.gcd a b : Int) ∣ b := Int.gcd_dvd_right
      have := Int.emod_add_ediv a b
      have : a % b = a - b * (a / b) := by omega
      rw [this]
      exact dvd_sub h1 (Dvd.dvd.mul_right h2 _)

theorem euclidGo_spec (fuel : Nat) :
    ∀ a b : Int, 0 ≤ a → 0 ≤ b → b.natAbs ≤ fuel →
      (euclidGo fuel a b).2.2 = Int.gcd a b ∧
      a * (euclidGo fuel a b).1 + b * (euclidGo fuel a b).2.1 =
        (euclidGo fuel a b).2.2 := by
  induction fuel with
  | zero =>
      intro a b ha hb hfuel
      have hb0 : b = 0 := by omega
      subst hb0
      simp [euclidGo, Int.gcd_zero_right, Int.natAbs_of_nonneg ha]
  | succ fuel ih =>
      intro a b ha hb hfuel
      by_cases hb0 : b = 0
      · subst hb0
        simp [euclidGo, Int.gcd_zero_right, Int.natAbs_of_nonneg ha]
      · have hbpos : 0 < b := by omega
        have hmod_eq : a.fmod b = a % b := Int.fmod_eq_emod a hb
        have hdiv_eq : a.fdiv b = a / b := Int.fdiv_eq_ediv a hb
        have hmod_nonneg : 0 ≤ a % b := Int.emod_nonneg a hb0
        have hmod_lt : a % b < b := Int.emod_lt_of_pos a hbpos
        have hfuel' : (a % b).natAbs ≤ fuel := by
          have := Int.natAbs_lt_natAbs_of_nonneg_of_lt hmod_nonneg hmod_lt
          omega
        obtain ⟨ihg, ihb⟩ := ih b (a % b) hb hmod_nonneg hfuel'
        simp only [euclidGo, hb0, if_neg, ite_false]
        rw [hmod_eq, hdiv_eq]
        cases hrec : euclidGo fuel b (a % b) with
        | mk x0 yd =>
          cases yd with
          | mk y0 d =>
            rw [hrec] at ihg ihb
            simp only at ihg ihb ⊢
            constructor
            · rw [ihg, gcd_emod_rec]
            · have hmoddef : a % b = a - b * (a / b) := by
                have := Int.emod_add_ediv a b
                omega
              rw [← ihb]
              rw [hmoddef]
              ring

theorem extended_euclid_spec (a b : Int) (ha : 0 ≤ a) (hb : 0 ≤ b) :
    (extended_euclid a b).2.2 = Int.gcd a b ∧
    a * (extended_euclid a b).1 + b * (extended_euclid a b).2.1 =
      (extended_euclid a b).2.2 :=
  euclidGo_spec b.natAbs a b ha hb (le_refl _)
theorem walkUpF_mem (a b : Int) (ha : 0 < a) (fuel : Nat) :
    ∀ x y : Int, y < a * fuel → ∀ p : Int × Int,
      (p ∈ walkUpF fuel a b x y ↔
        ∃ k : Nat, 0 ≤ x + k * b ∧ 0 ≤ y - k * a ∧ p = (x + k * b, y - k * a)) := by
  induction fuel with
  | zero =>
      intro x y hy p
      simp only [walkUpF, List.not_mem_nil, false_iff, not_exists]
      intro k ⟨h1, h2, h3⟩
      have hka : 0 ≤ (k : Int) * a := by positivity
      push_cast at hy
      linarith
  | succ fuel ih =>
      intro x y hy p
      by_cases hy0 : 0 ≤ y
      · have hy' : y - a < a * fuel := by push_cast at hy ⊢; nlinarith
        simp only [walkUpF, if_pos hy0, List.mem_append]
        rw [ih (x + b) (y - a) hy' p]
        constructor
        · rintro (hp | ⟨k, h1, h2, h3⟩)
          · by_cases hx : 0 ≤ x
            · simp only [if_pos hx, List.mem_singleton] at hp
              exact ⟨0, by simpa using hx, by simpa using hy0, by simpa using hp⟩
            · simp [hx] at hp
          · refine ⟨k + 1, ?_, ?_, ?_⟩
            · push_cast; linarith
            · push_cast; linarith
            · rw [h3]; simp only [Prod.mk.injEq]
              constructor <;> (push_cast; ring)
        · rintro ⟨k, h1, h2, h3⟩
          cases k with
          | zero =>
              left
              have hx : 0 ≤ x := by simpa using h1
              simp only [if_pos hx, List.mem_singleton]
              simp only [Nat.cast_zero, zero_mul, add_zero, sub_zero] at h3
              exact h3
          | succ k =>
              right
              refine ⟨k, ?_, ?_, ?_⟩
              · push_cast at h1 ⊢; linarith
              · push_cast at h2 ⊢; linarith
              · rw [h3]; simp only [Prod.mk.injEq]
                constructor <;> (push_cast; ring)
      · simp only [walkUpF, if_neg hy0]
        simp only [List.not_mem_nil, false_iff, not_exists]
        intro k ⟨h1, h2, h3⟩
        have hka : 0 ≤ (k : Int) * a := by positivity
        simp at hy0
        linarith

theorem walkUpF_fst_lb (a b : Int) (hb : 0 ≤ b) (fuel : Nat) :
    ∀ x y : Int, ∀ p : Int × Int, p ∈ walkUpF fuel a b x y → x ≤ p.1 := by
  induction fuel with
  | zero => intro x y p hp; simp [walkUpF] at hp
  | succ fuel ih =>
      intro x y p hp
      simp only [walkUpF] at hp
      by_cases hy0 : 0 ≤ y
      · rw [if_pos hy0, List.mem_append] at hp
        rcases hp with hp | hp
        · by_cases hx : 0 ≤ x
          · simp only [if_pos hx, List.mem_singleton] at hp
            simp [hp]
          · simp [hx] at hp
        · have := ih (x + b) (y - a) p hp
          linarith
      · rw [if_neg hy0] at hp; simp at hp

theorem walkUpF_pairwise (a b : Int) (hb : 0 < b) (fuel : Nat) :
    ∀ x y : Int, (walkUpF fuel a b x y).Pairwise (fun p q => p.1 < q.1) := by
  induction fuel with
  | zero => intro x y; simp [walkUpF]
  | succ fuel ih =>
      intro x y
      simp only [walkUpF]
      by_cases hy0 : 0 ≤ y
      · rw [if_pos hy0]
        rw [List.pairwise_append]
        refine ⟨?_, ih (x + b) (y - a), ?_⟩
        · by_cases hx : 0 ≤ x <;> simp [hx]
        · intro p hp q hq
          by_cases hx : 0 ≤ x
          · simp only [if_pos hx, List.mem_singleton] at hp
            have := walkUpF_fst_lb a b (le_of_lt hb) fuel (x + b) (y - a) q hq
            simp [hp]
            linarith
          · simp [hx] at hp
      · rw [if_neg hy0]; simp

theorem walkDownF_mem (a b : Int) (hb : 0 < b) (fuel : Nat) :
    ∀ x y : Int, x < b * fuel → ∀ p : Int × Int,
      (p ∈ walkDownF fuel a b x y ↔
        ∃ k : Nat, 0 ≤ x - k * b ∧ 0 ≤ y + k * a ∧ p = (x - k * b, y + k * a)) := by
  induction fuel with
  | zero =>
      intro x y hx p
      simp only [walkDownF, List.not_mem_nil, false_iff, not_exists]
      intro k ⟨h1, h2, h3⟩
      have hkb : 0 ≤ (k : Int) * b := by positivity
      push_cast at hx
      linarith
  | succ fuel ih =>
      intro x y hx p
      by_cases hx0 : 0 ≤ x
      · have hx' : x - b < b * fuel := by push_cast at hx ⊢; nlinarith
        simp only [walkDownF, if_pos hx0, List.mem_append]
        rw [ih (x - b) (y + a) hx' p]
        constructor
        · rintro (hp | ⟨k, h1, h2, h3⟩)
          · by_cases hy : 0 ≤ y
            · simp only [if_pos hy, List.mem_singleton] at hp
              exact ⟨0, by simpa using hx0, by simpa using hy, by simpa using hp⟩
            · simp [hy] at hp
          · refine ⟨k + 1, ?_, ?_, ?_⟩
            · push_cast; linarith
            · push_cast; linarith
            · rw [h3]; simp only [Prod.mk.injEq]
              constructor <;> (push_cast; ring)
        · rintro ⟨k, h1, h2, h3⟩
          cases k with
          | zero =>
              left
              have hy : 0 ≤ y := by simpa using h2
              simp only [if_pos hy, List.mem_singleton]
              simp only [Nat.cast_zero, zero_mul, add_zero, sub_zero] at h3
              exact h3
          | succ k =>
              right
              refine ⟨k, ?_, ?_, ?_⟩
              · push_cast at h1 ⊢; linarith
              · push_cast at h2 ⊢; linarith
              · rw [h3]; simp only [Prod.mk.injEq]
                constructor <;> (push_cast; ring)
      · simp only [walkDownF, if_neg hx0]
        simp only [List.not_mem_nil, false_iff, not_exists]
        intro k ⟨h1, h2, h3⟩
        have hkb : 0 ≤ (k : Int) * b := by positivity
        simp at hx0
        linarith

theorem walkDownF_fst_ub (a b : Int) (hb : 0 ≤ b) (fuel : Nat) :
    ∀ x y : Int, ∀ p : Int × Int, p ∈ walkDownF fuel a b x y → p.1 ≤ x := by
  induction fuel with
  | zero => intro x y p hp; simp [walkDownF] at hp
  | succ fuel ih =>
      intro x y p hp
      simp only [walkDownF] at hp
      by_cases hx0 : 0 ≤ x
      · rw [if_pos hx0, List.mem_append] at hp
        rcases hp with hp | hp
        · by_cases hy : 0 ≤ y
          · simp only [if_pos hy, List.mem_singleton] at hp
            simp [hp]
          · simp [hy] at hp
        · have := ih (x - b) (y + a) p hp
          linarith
      · rw [if_neg hx0] at hp; simp at hp

theorem walkDownF_pairwise (a b : Int) (hb : 0 < b) (fuel : Nat) :
    ∀ x y : Int, (walkDownF fuel a b x y).Pairwise (fun p q => q.1 < p.1) := by
  induction fuel with
  | zero => intro x y; simp [walkDownF]
  | succ fuel ih =>
      intro x y
      simp only [walkDownF]
      by_cases hx0 : 0 ≤ x
      · rw [if_pos hx0]
        rw [List.pairwise_append]
        refine ⟨?_, ih (x - b) (y + a), ?_⟩
        · by_cases hy : 0 ≤ y <;> simp [hy]
        · intro p hp q hq
          by_cases hy : 0 ≤ y
          · simp only [if_pos hy, List.mem_singleton] at hp
            have := walkDownF_fst_ub a b (le_of_lt hb) fuel (x - b) (y + a) q hq
            simp [hp]
            linarith
          · simp [hy] at hp
      · rw [if_neg hx0]; simp

/-! ### Correctness of `base_solution_linear` -/

theorem lt_mul_toNat_succ (v a : Int) (ha : 0 < a) :
    v < a * ((v.toNat : Int) + 1) := by
  by_cases hv : 0 ≤ v
  · have h1 : (v.toNat : Int) = v := Int.toNat_of_nonneg hv
    nlinarith
  · have h2 : (0 : Int) < a * ((v.toNat : Int) + 1) := by positivity
    omega

theorem bezout_family (a1 b1 x0 y0 X0 Y0 X Y c1 : Int)
    (bez1 : a1 * x0 + b1 * y0 = 1)
    (hbase : a1 * X0 + b1 * Y0 = c1)
    (hXY : a1 * X + b1 * Y = c1) :
    ∃ t : Int, X = X0 + t * b1 ∧ Y = Y0 - t * a1 := by
  refine ⟨x0 * (Y0 - Y) + y0 * (X - X0), ?_, ?_⟩
  · linear_combination (X0 - X) * bez1 + x0 * (hXY - hbase)
  · linear_combination (Y0 - Y) * bez1 + y0 * (hXY - hbase)

theorem base_solution_linear_ok (a b c : Int) (ha : 0 < a) (hb : 0 < b)
    (hc : 0 ≤ c) :
    ∃ l, base_solution_linear a b c = .ok l ∧ l.Nodup ∧
      ∀ p : Int × Int, p ∈ l ↔ 0 ≤ p.1 ∧ 0 ≤ p.2 ∧ a * p.1 + b * p.2 = c := by
  have hcond : ¬ (a ≤ 0 ∨ b ≤ 0) := by omega
  set d : Int := (Int.gcd a (Int.gcd b c) : Int) with hd_def
  have hd_pos : 0 < d := by
    rw [hd_def]
    exact_mod_cast Int.gcd_pos_of_ne_zero_left _ (by omega)
  have hda : d ∣ a := Int.gcd_dvd_left
  have hdbc : d ∣ (Int.gcd b c : Int) := Int.gcd_dvd_right
  have hdb : d ∣ b := dvd_trans hdbc Int.gcd_dvd_left
  have hdc : d ∣ c := dvd_trans hdbc Int.gcd_dvd_right
  have hfa : a.fdiv d = a / d := Int.fdiv_eq_ediv a (le_of_lt hd_pos)
  have hfb : b.fdiv d = b / d := Int.fdiv_eq_ediv b (le_of_lt hd_pos)
  have hfc : c.fdiv d = c / d := Int.fdiv_eq_ediv c (le_of_lt hd_pos)
  set a1 : Int := a / d with ha1_def
  set b1 : Int := b / d with hb1_def
  set c1 : Int := c / d with hc1_def
  have heqa : d * a1 = a := Int.mul_ediv_cancel' hda
  have heqb : d * b1 = b := Int.mul_ediv_cancel' hdb
  have heqc : d * c1 = c := Int.mul_ediv_cancel' hdc
  have ha1 : 0 < a1 := Int.ediv_pos_of_pos_of_dvd ha (le_of_lt hd_pos) hda
  have hb1 : 0 < b1 := Int.ediv_pos_of_pos_of_dvd hb (le_of_lt hd_pos) hdb
  have hc1 : 0 ≤ c1 := Int.ediv_nonneg hc (le_of_lt hd_pos)
  have hscale : ∀ X Y : Int, (a * X + b * Y = c ↔ a1 * X + b1 * Y = c1) := by
    intro X Y
    constructor
    · intro h
      apply mul_left_cancel₀ (show d ≠ 0 by omega)
      rw [mul_add, ← mul_assoc, ← mul_assoc, heqa, heqb, heqc]
      exact h
    · intro h
      rw [← heqa, ← heqb, ← heqc]
      linear_combination d * h
  simp only [base_solution_linear, if_neg hcond, hfa, hfb, hfc,
    ← hd_def, ← ha1_def, ← hb1_def, ← hc1_def]
  by_cases hc10 : c1 = 0
  · have hc0 : c = 0 := by rw [← heqc, hc10]; ring
    subst hc0
    rw [if_pos hc10]
    refine ⟨[(0, 0)], rfl, List.nodup_singleton _, ?_⟩
    intro p
    simp only [List.mem_singleton]
    constructor
    · rintro rfl
      exact ⟨le_refl _, le_refl _, by ring⟩
    · rintro ⟨h1, h2, h3⟩
      have hap : 0 ≤ a * p.1 := by positivity
      have hbp : 0 ≤ b * p.2 := by positivity
      have hap0 : a * p.1 = 0 := by omega
      have hbp0 : b * p.2 = 0 := by omega
      have hp1 : p.1 = 0 := by
        rcases mul_eq_zero.mp hap0 with h | h
        · omega
        · exact h
      have hp2 : p.2 = 0 := by
        rcases mul_eq_zero.mp hbp0 with h | h
        · omega
        · exact h
      cases p
      simp_all
  · rw [if_neg hc10]
    have hc1pos : 0 < c1 := by omega
    rcases hE : extended_euclid a1 b1 with ⟨x0, yg⟩
    rcases yg with ⟨y0, g⟩
    obtain ⟨hgcd, hbez⟩ := extended_euclid_spec a1 b1 (le_of_lt ha1) (le_of_lt hb1)
    rw [hE] at hgcd hbez
    simp only at hgcd hbez
    have hg_pos : 0 < g := by
      rw [hgcd]
      exact_mod_cast Int.gcd_pos_of_ne_zero_left _ (by omega)
    have hga1 : g ∣ a1 := by rw [hgcd]; exact Int.gcd_dvd_left
    have hgb1 : g ∣ b1 := by rw [hgcd]; exact Int.gcd_dvd_right
    have hfm : c1.fmod g = c1 % g := Int.fmod_eq_emod c1 (le_of_lt hg_pos)
    by_cases hdvd : g ∣ c1
    · have hmod0 : ¬ (c1.fmod g ≠ 0) := by
        rw [hfm]
        simp [Int.emod_eq_zero_of_dvd hdvd]
      rw [if_neg hmod0]
      have hg1 : g = 1 := by
        have h1 : d * g ∣ a := by rw [← heqa]; exact mul_dvd_mul_left d hga1
        have h2 : d * g ∣ b := by rw [← heqb]; exact mul_dvd_mul_left d hgb1
        have h3 : d * g ∣ c := by rw [← heqc]; exact mul_dvd_mul_left d hdvd
        have h4 : d * g ∣ (Int.gcd b c : Int) := Int.dvd_gcd h2 h3
        have h5 : d * g ∣ d := by
          rw [hd_def]
          exact Int.dvd_gcd h1 h4
        have h6 : g ∣ 1 := by
          rw [show d = d * 1 by ring] at h5
          exact (mul_dvd_mul_iff_left (show d ≠ 0 by omega)).mp
            (by rw [mul_one] at h5 ⊢; exact h5)
        exact Int.eq_one_of_dvd_one (le_of_lt hg_pos) h6
      have bez1 : a1 * x0 + b1 * y0 = 1 := by rw [← hg1]; exact hbez
      have hbase : a1 * (c1 * x0) + b1 * (c1 * y0) = c1 := by
        linear_combination c1 * bez1
      by_cases hX0 : c1 * x0 ≤ 0
      · rw [if_pos hX0]
        refine ⟨_, rfl, ?_, ?_⟩
        · exact ((walkUpF_pairwise a1 b1 hb1 _ _ _).imp
            (fun h => by intro he; rw [he] at h; exact lt_irrefl _ h))
        · intro p
          rw [walkUpF_mem a1 b1 ha1 _ _ _
            (lt_mul_toNat_succ (c1 * y0) a1 ha1) p]
          constructor
          · rintro ⟨k, h1, h2, h3⟩
            subst h3
            refine ⟨h1, h2, ?_⟩
            rw [hscale]
            push_cast
            linear_combination hbase
          · rintro ⟨h1, h2, h3⟩
            rw [hscale] at h3
            obtain ⟨t, ht1, ht2⟩ := bezout_family a1 b1 x0 y0 _ _ p.1 p.2 c1
              bez1 hbase h3
            have htb : 0 ≤ t * b1 := by linarith
            have htnn : 0 ≤ t := by
              by_contra hcon
              push_neg at hcon
              have := mul_neg_of_neg_of_pos hcon hb1
              linarith
            refine ⟨t.toNat, ?_, ?_, ?_⟩
            · rw [Int.toNat_of_nonneg htnn, ← ht1]; exact h1
            · rw [Int.toNat_of_nonneg htnn, ← ht2]; exact h2
            · rw [Int.toNat_of_nonneg htnn, ← ht1, ← ht2]
      · rw [if_neg hX0]
        push_neg at hX0
        have hx0pos : 0 < x0 := by nlinarith
        have hy0np : y0 ≤ 0 := by nlinarith
        have hY0np : c1 * y0 ≤ 0 := by nlinarith
        refine ⟨_, rfl, ?_, ?_⟩
        · exact ((walkDownF_pairwise a1 b1 hb1 _ _ _).imp
            (fun h => by intro he; rw [he] at h; exact lt_irrefl _ h))
        · intro p
          rw [walkDownF_mem a1 b1 hb1 _ _ _
            (lt_mul_toNat_succ (c1 * x0) b1 hb1) p]
          constructor
          · rintro ⟨k, h1, h2, h3⟩
            subst h3
            refine ⟨h1, h2, ?_⟩
            rw [hscale]
            push_cast
            linear_combination hbase
          · rintro ⟨h1, h2, h3⟩
            rw [hscale] at h3
            obtain ⟨t, ht1, ht2⟩ := bezout_family a1 b1 x0 y0 _ _ p.1 p.2 c1
              bez1 hbase h3
            have hta : t * a1 ≤ 0 := by linarith
            have htnp : t ≤ 0 := by
              by_contra hcon
              push_neg at hcon
              have := mul_pos hcon ha1
              linarith
            refine ⟨(-t).toNat, ?_, ?_, ?_⟩
            · rw [Int.toNat_of_nonneg (by omega : (0:Int) ≤ -t)]
              rw [ht1] at h1
              have : c1 * x0 - -t * b1 = c1 * x0 + t * b1 := by ring
              rw [this]
              exact h1
            · rw [Int.toNat_of_nonneg (by omega : (0:Int) ≤ -t)]
              rw [ht2] at h2
              have : c1 * y0 + -t * a1 = c1 * y0 - t * a1 := by ring
              rw [this]
              exact h2
            · rw [Int.toNat_of_nonneg (by omega : (0:Int) ≤ -t)]
              show p = (c1 * x0 - -t * b1, c1 * y0 + -t * a1)
              rw [Prod.ext_iff]
              refine ⟨?_, ?_⟩
              · rw [ht1]; ring
              · rw [ht2]; ring
    · have hmodne : c1.fmod g ≠ 0 := by
        rw [hfm]
        intro hcontra
        exact hdvd (Int.dvd_of_emod_eq_zero hcontra)
      rw [if_pos hmodne]
      refine ⟨[], rfl, List.nodup_nil, ?_⟩
      intro p
      simp only [List.not_mem_nil, false_iff]
      rintro ⟨h1, h2, h3⟩
      rw [hscale] at h3
      apply hdvd
      have : g ∣ a1 * p.1 + b1 * p.2 := dvd_add
        (Dvd.dvd.mul_right hga1 _) (Dvd.dvd.mul_right hgb1 _)
      rw [h3] at this
      exact this

theorem base_solution_linear_isOk (a b c : Int) (h : ¬ (a ≤ 0 ∨ b ≤ 0)) :
    ∃ l, base_solution_linear a b c = .ok l := by
  simp only [base_solution_linear, if_neg h]
  rcases extended_euclid (a.fdiv (Int.gcd a (Int.gcd b c)))
      (b.fdiv (Int.gcd a (Int.gcd b c))) with ⟨x0, yg⟩
  rcases yg with ⟨y0, g⟩
  repeat' split
  all_goals exact ⟨_, rfl⟩

/-! ### Helper lemmas about the gcd fold and `dotProd` -/

theorem foldl_gcd_pos (l : List Int) :
    ∀ init : Int, 0 < init →
      0 < l.foldl (fun r c => (Int.gcd r c : Int)) init := by
  induction l with
  | nil => intro init h; simpa using h
  | cons c l ih =>
      intro init h
      simp only [List.foldl_cons]
      exact ih _ (by exact_mod_cast Int.gcd_pos_of_ne_zero_left c (by omega))

theorem foldl_gcd_dvd_init (l : List Int) :
    ∀ init : Int, l.foldl (fun r c => (Int.gcd r c : Int)) init ∣ init := by
  induction l with
  | nil => intro init; simp
  | cons c l ih =>
      intro init
      simp only [List.foldl_cons]
      exact dvd_trans (ih _) Int.gcd_dvd_left

theorem foldl_gcd_dvd_mem (l : List Int) :
    ∀ init : Int, ∀ x ∈ l, l.foldl (fun r c => (Int.gcd r c : Int)) init ∣ x := by
  induction l with
  | nil => intro init x hx; simp at hx
  | cons c l ih =>
      intro init x hx
      simp only [List.foldl_cons]
      rcases List.mem_cons.mp hx with rfl | hx
      · exact dvd_trans (foldl_gcd_dvd_init l _) Int.gcd_dvd_right
      · exact ih _ x hx

theorem dotProd_nil_right (cs : List Int) : dotProd cs [] = 0 := by
  cases cs <;> simp [dotProd]

theorem dotProd_cons (c x : Int) (cs xs : List Int) :
    dotProd (c :: cs) (x :: xs) = c * x + dotProd cs xs := by
  simp [dotProd]

theorem dotProd_nonneg (cs xs : List Int) (hcs : ∀ c ∈ cs, 0 ≤ c)
    (hxs : ∀ x ∈ xs, 0 ≤ x) : 0 ≤ dotProd cs xs := by
  induction cs generalizing xs with
  | nil => simp [dotProd]
  | cons c cs ih =>
      cases xs with
      | nil => simp [dotProd_nil_right]
      | cons x xs =>
          rw [dotProd_cons]
          have h1 : 0 ≤ c * x :=
            mul_nonneg (hcs c (by simp)) (hxs x (by simp))
          have h2 : 0 ≤ dotProd cs xs :=
            ih xs (fun c hc => hcs c (by simp [hc])) (fun x hx => hxs x (by simp [hx]))
          omega

theorem dotProd_scale (g : Int) (hg : 0 < g) (cs : List Int)
    (hdvd : ∀ c ∈ cs, g ∣ c) :
    ∀ xs : List Int, dotProd cs xs = g * dotProd (cs.map (fun c => c.fdiv g)) xs := by
  induction cs with
  | nil => intro xs; simp [dotProd]
  | cons c cs ih =>
      intro xs
      cases xs with
      | nil => simp [dotProd_nil_right]
      | cons x xs =>
          simp only [List.map_cons]
          rw [dotProd_cons, dotProd_cons]
          rw [ih (fun c hc => hdvd c (by simp [hc])) xs]
          have hfd : c.fdiv g = c / g := Int.fdiv_eq_ediv c (le_of_lt hg)
          have : g * (c / g) = c := Int.mul_ediv_cancel' (hdvd c (by simp))
          rw [hfd]
          linear_combination (x : Int) * this.symm

/-! ### Correctness of `solve_linear_diop` -/

theorem solveGo_one (fuel : Nat) (total c : Int) (hc : 0 < c) (htot : 0 ≤ total) :
    ∃ sols, solveGo fuel total [c] = .ok sols ∧ sols.Nodup ∧
      ∀ v : List Int, v ∈ sols ↔
        v.length = 1 ∧ (∀ x ∈ v, 0 ≤ x) ∧ dotProd [c] v = total := by
  have hc0 : ¬ c = 0 := by omega
  have hfm : total.fmod c = total % c := Int.fmod_eq_emod total (le_of_lt hc)
  have hfd : total.fdiv c = total / c := Int.fdiv_eq_ediv total (le_of_lt hc)
  have hbody : solveGo fuel total [c] =
      .ok (if total.fmod c = 0 then [[total.fdiv c]] else []) := by
    cases fuel <;> simp [solveGo, hc0]
  by_cases hdvd : c ∣ total
  · have hmod : total.fmod c = 0 := by rw [hfm]; exact Int.emod_eq_zero_of_dvd hdvd
    refine ⟨[[total.fdiv c]], by rw [hbody, if_pos hmod], List.nodup_singleton _, ?_⟩
    intro v
    simp only [List.mem_singleton]
    constructor
    · rintro rfl
      refine ⟨by simp, ?_, ?_⟩
      · intro x hx
        simp only [List.mem_singleton] at hx
        subst hx
        rw [hfd]
        exact Int.ediv_nonneg htot (le_of_lt hc)
      · rw [hfd]
        simp [dotProd]
        exact Int.mul_ediv_cancel' hdvd
    · rintro ⟨hlen, hnn, hdot⟩
      obtain ⟨x, rfl⟩ := List.length_eq_one.mp hlen
      simp only [dotProd, List.zipWith, List.sum_cons, List.sum_nil, add_zero] at hdot
      have : c * x = c * (total / c) := by
        rw [Int.mul_ediv_cancel' hdvd]; exact hdot
      have hx : x = total / c := mul_left_cancel₀ hc0 this
      rw [hx, hfd]
  · have hmod : ¬ total.fmod c = 0 := by
      rw [hfm]
      intro h
      exact hdvd (Int.dvd_of_emod_eq_zero h)
    refine ⟨[], by rw [hbody, if_neg hmod], List.nodup_nil, ?_⟩
    intro v
    simp only [List.not_mem_nil, false_iff]
    rintro ⟨hlen, hnn, hdot⟩
    obtain ⟨x, rfl⟩ := List.length_eq_one.mp hlen
    simp only [dotProd, List.zipWith, List.sum_cons, List.sum_nil, add_zero] at hdot
    exact hdvd ⟨x, hdot.symm⟩

theorem solveGo_two (fuel : Nat) (total a b : Int) (ha : 0 < a) (hb : 0 < b)
    (htot : 0 ≤ total) :
    ∃ sols, solveGo fuel total [a, b] = .ok sols ∧ sols.Nodup ∧
      ∀ v : List Int, v ∈ sols ↔
        v.length = 2 ∧ (∀ x ∈ v, 0 ≤ x) ∧ dotProd [a, b] v = total := by
  obtain ⟨l, hl, hnd, hmem⟩ := base_solution_linear_ok a b total ha hb htot
  have hbody : solveGo fuel total [a, b] =
      .ok (l.map (fun p => [p.1, p.2])) := by
    cases fuel <;> simp [solveGo, hl, Except.map]
  refine ⟨_, hbody, ?_, ?_⟩
  · refine List.Nodup.map ?_ hnd
    intro p q h
    simp only [List.cons.injEq, and_true] at h
    exact Prod.ext h.1 h.2
  · intro v
    rw [List.mem_map]
    constructor
    · rintro ⟨p, hp, rfl⟩
      obtain ⟨h1, h2, h3⟩ := (hmem p).mp hp
      refine ⟨by simp, ?_, ?_⟩
      · intro x hx
        rcases List.mem_cons.mp hx with rfl | hx
        · exact h1
        · simp only [List.mem_singleton] at hx
          subst hx
          exact h2
      · simp [dotProd]
        linarith
    · rintro ⟨hlen, hnn, hdot⟩
      obtain ⟨x, y, rfl⟩ := List.length_eq_two.mp hlen
      refine ⟨(x, y), (hmem (x, y)).mpr ⟨hnn x (by simp), hnn y (by simp), ?_⟩, rfl⟩
      simp only [dotProd, List.zipWith, List.sum_cons, List.sum_nil, add_zero] at hdot
      linarith

theorem solve_foldl_combine (fuel : Nat) (nc : List Int) :
    ∀ (pairs : List (Int × Int)) (F : Int × Int → List (List Int)),
      (∀ p ∈ pairs, solveGo fuel p.2 nc = .ok (F p)) →
      ∀ acc0 : List (List Int),
        pairs.foldl
          (fun (acc : Except PyErr (List (List Int))) (p : Int × Int) =>
            match acc with
            | Except.error e => Except.error e
            | Except.ok done =>
                match solveGo fuel p.2 nc with
                | Except.error e => Except.error e
                | Except.ok sols => Except.ok (done ++ sols.map (fun s => p.1 :: s)))
          (Except.ok acc0) =
        Except.ok (acc0 ++ pairs.flatMap (fun p => (F p).map (fun s => p.1 :: s))) := by
  intro pairs
  induction pairs with
  | nil => intro F hF acc0; simp
  | cons p ps ih =>
      intro F hF acc0
      simp only [List.foldl_cons, hF p (by simp)]
      rw [ih F (fun q hq => hF q (by simp [hq])) _]
      simp [List.flatMap_cons, List.append_assoc]

theorem solveGo_ok (fuel : Nat) :
    ∀ (total : Int) (coeffs : List Int),
      coeffs ≠ [] → coeffs.length ≤ fuel + 2 → (∀ c ∈ coeffs, 0 < c) →
      0 ≤ total →
      ∃ sols, solveGo fuel total coeffs = .ok sols ∧ sols.Nodup ∧
        ∀ v : List Int, v ∈ sols ↔
          v.length = coeffs.length ∧ (∀ x ∈ v, 0 ≤ x) ∧
            dotProd coeffs v = total := by
  induction fuel with
  | zero =>
      intro total coeffs hne hlen hpos htot
      cases coeffs with
      | nil => exact absurd rfl hne
      | cons c0 tail =>
        cases tail with
        | nil => simpa using solveGo_one 0 total c0 (hpos c0 (by simp)) htot
        | cons c1 tail2 =>
          cases tail2 with
          | nil =>
              simpa using solveGo_two 0 total c0 c1 (hpos c0 (by simp))
                (hpos c1 (by simp)) htot
          | cons c2 rest => simp only [List.length_cons] at hlen; omega
  | succ fuel ih =>
      intro total coeffs hne hlen hpos htot
      cases coeffs with
      | nil => exact absurd rfl hne
      | cons c0 tail =>
        cases tail with
        | nil =>
            simpa using solveGo_one (fuel + 1) total c0 (hpos c0 (by simp)) htot
        | cons c1 tail2 =>
          cases tail2 with
          | nil =>
              simpa using solveGo_two (fuel + 1) total c0 c1 (hpos c0 (by simp))
                (hpos c1 (by simp)) htot
          | cons c2 rest =>
            have hc0 : 0 < c0 := hpos c0 (by simp)
            have hc1 : 0 < c1 := hpos c1 (by simp)
            have hc2 : 0 < c2 := hpos c2 (by simp)
            set g : Int :=
              rest.foldl (fun r c => (Int.gcd r c : Int)) (Int.gcd c1 c2)
              with hg_def
            have hg_pos : 0 < g := by
              rw [hg_def]
              exact foldl_gcd_pos rest _
                (by exact_mod_cast Int.gcd_pos_of_ne_zero_left c2 (by omega))
            have hg_c1 : g ∣ c1 := by
              rw [hg_def]
              exact dvd_trans (foldl_gcd_dvd_init rest _) Int.gcd_dvd_left
            have hg_c2 : g ∣ c2 := by
              rw [hg_def]
              exact dvd_trans (foldl_gcd_dvd_init rest _) Int.gcd_dvd_right
            have hg_all : ∀ c ∈ c1 :: c2 :: rest, g ∣ c := by
              intro c hc
              rcases List.mem_cons.mp hc with rfl | hc
              · exact hg_c1
              rcases List.mem_cons.mp hc with rfl | hc
              · exact hg_c2
              · rw [hg_def]; exact foldl_gcd_dvd_mem rest _ c hc
            obtain ⟨pairs, hpairs, hpnd, hpmem⟩ :=
              base_solution_linear_ok c0 g total hc0 hg_pos htot
            set nc : List Int := (c1 :: c2 :: rest).map (fun c => c.fdiv g)
              with hnc_def
            have hnc_len : nc.length = rest.length + 2 := by simp [hnc_def]
            have hnc_pos : ∀ c ∈ nc, 0 < c := by
              intro c hc
              rw [hnc_def] at hc
              obtain ⟨c', hc', rfl⟩ := List.mem_map.mp hc
              have hpos' : 0 < c' := hpos c' (by simp [hc'])
              rw [Int.fdiv_eq_ediv c' (le_of_lt hg_pos)]
              exact Int.ediv_pos_of_pos_of_dvd hpos' (le_of_lt hg_pos)
                (hg_all c' hc')
            have hex : ∀ p, p ∈ pairs →
                ∃ s, solveGo fuel p.2 nc = .ok s ∧ s.Nodup ∧
                  ∀ v : List Int, v ∈ s ↔
                    v.length = nc.length ∧ (∀ x ∈ v, 0 ≤ x) ∧
                      dotProd nc v = p.2 := by
              intro p hp
              obtain ⟨_, h2, _⟩ := (hpmem p).mp hp
              have hlen2 : nc.length ≤ fuel + 2 := by
                simp only [List.length_cons] at hlen
                omega
              exact ih p.2 nc (by rw [hnc_def]; simp) hlen2 hnc_pos h2
            choose S hSok hSnd hSmem using hex
            set F : Int × Int → List (List Int) :=
              fun p => if h : p ∈ pairs then S p h else [] with hF_def
            have hFok : ∀ p ∈ pairs, solveGo fuel p.2 nc = .ok (F p) := by
              intro p hp
              rw [hF_def]
              simp only [dif_pos hp]
              exact hSok p hp
            have hFmem : ∀ p (hp : p ∈ pairs), ∀ w : List Int,
                w ∈ F p ↔ w.length = nc.length ∧ (∀ x ∈ w, 0 ≤ x) ∧
                  dotProd nc w = p.2 := by
              intro p hp w
              rw [hF_def]
              simp only [dif_pos hp]
              exact hSmem p hp w
            have hbody : solveGo (fuel + 1) total (c0 :: c1 :: c2 :: rest) =
                .ok (pairs.flatMap (fun p => (F p).map (fun s => p.1 :: s))) := by
              simp only [solveGo]
              rw [← hg_def, ← hnc_def, hpairs]
              have := solve_foldl_combine fuel nc pairs F hFok []
              simp only [List.nil_append] at this
              exact this
            refine ⟨_, hbody, ?_, ?_⟩
            · rw [List.nodup_flatMap]
              constructor
              · intro p hp
                refine List.Nodup.map ?_ ?_
                · intro s t h
                  simpa using h
                · rw [hF_def]
                  simp only [dif_pos hp]
                  exact hSnd p hp
              · refine List.Pairwise.imp_of_mem ?_ hpnd
                intro p q hp hq hne'
                intro v hvp hvq
                obtain ⟨w, hw, hvw⟩ := List.mem_map.mp hvp
                obtain ⟨w', hw', hvw'⟩ := List.mem_map.mp hvq
                have hhead : p.1 = q.1 ∧ w = w' := by
                  rw [← hvw'] at hvw
                  simpa using hvw
                obtain ⟨hw1, rfl⟩ := hhead
                have hd1 := ((hFmem p hp w).mp hw).2.2
                have hd2 := ((hFmem q hq w).mp hw').2.2
                exact hne' (Prod.ext hw1 (by rw [← hd1, ← hd2]))
            · intro v
              rw [List.mem_flatMap]
              constructor
              · rintro ⟨p, hp, hv⟩
                obtain ⟨w, hw, rfl⟩ := List.mem_map.mp hv
                obtain ⟨hp1, hp2, hpe⟩ := (hpmem p).mp hp
                obtain ⟨hwlen, hwnn, hwdot⟩ := (hFmem p hp w).mp hw
                refine ⟨?_, ?_, ?_⟩
                · simp only [List.length_cons]
                  rw [hwlen, hnc_len]
                · intro x hx
                  rcases List.mem_cons.mp hx with rfl | hx
                  · exact hp1
                  · exact hwnn x hx
                · rw [dotProd_cons]
                  have hscale := dotProd_scale g hg_pos (c1 :: c2 :: rest) hg_all w
                  rw [← hnc_def] at hscale
                  rw [hscale, hwdot]
                  exact hpe
              · rintro ⟨hlen', hnn, hdot⟩
                cases v with
                | nil => simp at hlen'
                | cons x w =>
                  have hx : 0 ≤ x := hnn x (by simp)
                  have hwnn : ∀ z ∈ w, 0 ≤ z := fun z hz => hnn z (by simp [hz])
                  have hy : 0 ≤ dotProd nc w :=
                    dotProd_nonneg nc w (fun c hc => le_of_lt (hnc_pos c hc)) hwnn
                  have hdot' : c0 * x + g * dotProd nc w = total := by
                    rw [dotProd_cons] at hdot
                    have hscale := dotProd_scale g hg_pos (c1 :: c2 :: rest) hg_all w
                    rw [← hnc_def] at hscale
                    rw [hscale] at hdot
                    exact hdot
                  have hpmem' : (x, dotProd nc w) ∈ pairs :=
                    (hpmem _).mpr ⟨hx, hy, hdot'⟩
                  refine ⟨(x, dotProd nc w), hpmem', ?_⟩
                  rw [List.mem_map]
                  refine ⟨w, ?_, rfl⟩
                  apply (hFmem _ hpmem' w).mpr
                  refine ⟨?_, hwnn, rfl⟩
                  simp only [List.length_cons] at hlen'
                  rw [hnc_len]
                  omega

/-! ### Claim theorems for the Diophantine solver -/

/-- **C3.** `base_solution_linear(a, b, c)` raises an invalid-argument error
iff `a ≤ 0` or `b ≤ 0`; for positive `a`, `b`, `c` it yields exactly the
non-negative integer solutions of `a*x + b*y = c`, each exactly once; and
when `c` normalized by `gcd(a, gcd(b, c))` is zero it yields exactly the
single pair `(0, 0)`. -/
theorem claim_C3_base_solution_linear (a b c : Int) :
    ((∃ e, base_solution_linear a b c = .error e) ↔ a ≤ 0 ∨ b ≤ 0) ∧
    (0 < a → 0 < b → 0 < c →
      ∃ l, base_solution_linear a b c = .ok l ∧ l.Nodup ∧
        ∀ p : Int × Int, p ∈ l ↔ 0 ≤ p.1 ∧ 0 ≤ p.2 ∧ a * p.1 + b * p.2 = c) ∧
    (0 < a → 0 < b → c.fdiv (Int.gcd a (Int.gcd b c)) = 0 →
      base_solution_linear a b c = .ok [(0, 0)]) := by
  refine ⟨?_, ?_, ?_⟩
  · constructor
    · rintro ⟨e, he⟩
      by_contra hcon
      obtain ⟨l, hl⟩ := base_solution_linear_isOk a b c hcon
      rw [hl] at he
      cases he
    · intro h
      exact ⟨.valueError, by rw [base_solution_linear, if_pos h]⟩
  · intro ha hb hc
    exact base_solution_linear_ok a b c ha hb (le_of_lt hc)
  · intro ha hb hnorm
    have hcond : ¬ (a ≤ 0 ∨ b ≤ 0) := by omega
    rw [base_solution_linear, if_neg hcond]
    simp only [if_pos hnorm]

/-- Witness for C3 at `(a, b, c) = (2, 3, 5)`: no error, and the single
solution `(1, 1)` is produced. -/
theorem claim_C3_witness :
    ∃ l, base_solution_linear 2 3 5 = .ok l ∧ (1, 1) ∈ l ∧
      ¬ (∃ e, base_solution_linear 2 3 5 = .error e) := by
  obtain ⟨hiff, hpos, _⟩ := claim_C3_base_solution_linear 2 3 5
  obtain ⟨l, hl, _, hmem⟩ := hpos (by decide) (by decide) (by decide)
  refine ⟨l, hl, (hmem (1, 1)).mpr (by decide), ?_⟩
  rw [hiff]
  decide

/-- **C2 (amended).** With zero coefficients `solve_linear_diop` yields the
empty tuple iff `total = 0` (any integer `total`); and for every
*non-negative* `total` and non-empty tuple of positive coefficients it
yields exactly the non-negative integer solutions of the weighted-sum
equation, each exactly once.  (The original claim, for arbitrary integer
`total`, fails at the one-coefficient branch: see the counterexample.) -/
theorem claim_C2_solve_linear_diop :
    (∀ total : Int,
      solve_linear_diop total [] = .ok (if total = 0 then [[]] else [])) ∧
    (∀ (total : Int) (coeffs : List Int), coeffs ≠ [] →
      (∀ c ∈ coeffs, 0 < c) → 0 ≤ total →
      ∃ sols, solve_linear_diop total coeffs = .ok sols ∧ sols.Nodup ∧
        ∀ v : List Int, v ∈ sols ↔
          v.length = coeffs.length ∧ (∀ x ∈ v, 0 ≤ x) ∧
            dotProd coeffs v = total) := by
  constructor
  · intro total
    rfl
  · intro total coeffs hne hpos htot
    exact solveGo_ok coeffs.length total coeffs hne (by omega) hpos htot

/-- Counterexample to C2 as stated: with a negative `total` and the single
positive coefficient `2`, `solve_linear_diop(-4, 2)` yields the tuple
`(-2,)`, which is not a tuple of non-negative integers (there are no
non-negative solutions of `2*x = -4`). -/
theorem claim_C2_counterexample :
    solve_linear_diop (-4) [2] = .ok [[-2]] ∧
      ¬ ∀ x ∈ [(-2 : Int)], 0 ≤ x := by
  constructor
  · rfl
  · decide

/-- Witness for C2 at `total = 5`, `coeffs = [2, 3]`. -/
theorem claim_C2_witness :
    ∃ sols, solve_linear_diop 5 [2, 3] = .ok sols ∧ [1, 1] ∈ sols := by
  obtain ⟨sols, hok, _, hmem⟩ :=
    claim_C2_solve_linear_diop.2 5 [2, 3] (by decide) (by decide) (by decide)
  exact ⟨sols, hok, (hmem [1, 1]).mpr (by decide)⟩

/-- **C9.** Calling `solve_linear_diop` with exactly one coefficient equal
to `0` hits the unguarded `total % coeffs[0]` and raises
`ZeroDivisionError` (never an invalid-argument error, and never an empty
result). -/
theorem claim_C9_div_by_zero (total : Int) :
    solve_linear_diop total [0] = .error .zeroDivisionError ∧
    ∀ sols, solve_linear_diop total [0] ≠ .ok sols := by
  constructor
  · rfl
  · intro sols h
    rw [show solve_linear_diop total [0] = .error .zeroDivisionError from rfl] at h
    cases h

/-! ### Correctness of `integer_partition_vector_iter` -/

theorem ipviGo_mem (n : Nat) :
    ∀ total : Int, 0 ≤ total → ∀ v : List Int,
      (v ∈ ipviGo n total ↔
        v.length = n ∧ (∀ x ∈ v, 0 ≤ x) ∧ v.sum = total) := by
  induction n with
  | zero =>
      intro total htot v
      simp only [ipviGo]
      constructor
      · intro hv
        split at hv
        · next h0 =>
            subst h0
            simp only [List.mem_singleton] at hv
            subst hv
            simp
        · next h0 => simp at hv
      · rintro ⟨hlen, _, hsum⟩
        rw [List.length_eq_zero] at hlen
        subst hlen
        simp only [List.sum_nil] at hsum
        rw [if_pos hsum.symm]
        simp
  | succ m ih =>
      intro total htot v
      cases m with
      | zero =>
          simp only [ipviGo, List.mem_singleton]
          constructor
          · rintro rfl
            refine ⟨by simp, ?_, by simp⟩
            intro x hx
            simp only [List.mem_singleton] at hx
            subst hx
            exact htot
          · rintro ⟨hlen, hnn, hsum⟩
            obtain ⟨x, rfl⟩ := List.length_eq_one.mp hlen
            simp only [List.sum_cons, List.sum_nil, add_zero] at hsum
            rw [hsum]
      | succ k =>
          simp only [ipviGo, List.mem_flatMap, List.mem_map, List.mem_range]
          constructor
          · rintro ⟨i, hi, w, hw, rfl⟩
            have hile : (i : Int) ≤ total := by omega
            have hrest : (0 : Int) ≤ total - i := by omega
            obtain ⟨hwlen, hwnn, hwsum⟩ := (ih (total - i) hrest w).mp hw
            refine ⟨by simp [hwlen], ?_, ?_⟩
            · intro x hx
              rcases List.mem_cons.mp hx with rfl | hx
              · positivity
              · exact hwnn x hx
            · simp only [List.sum_cons, hwsum]
              ring
          · rintro ⟨hlen, hnn, hsum⟩
            cases v with
            | nil => simp at hlen
            | cons x w =>
              have hx : 0 ≤ x := hnn x (by simp)
              have hwnn : ∀ z ∈ w, 0 ≤ z := fun z hz => hnn z (by simp [hz])
              have hwsumnn : 0 ≤ w.sum := List.sum_nonneg hwnn
              simp only [List.sum_cons] at hsum
              have hxle : x ≤ total := by omega
              refine ⟨x.toNat, by omega, w, ?_, ?_⟩
              · apply (ih (total - x.toNat) (by omega) w).mpr
                refine ⟨by simpa using hlen, hwnn, by omega⟩
              · rw [Int.toNat_of_nonneg hx]

theorem ipviGo_pairwise (n : Nat) :
    ∀ total : Int, (ipviGo n total).Pairwise (List.Lex (· < ·)) := by
  induction n with
  | zero =>
      intro total
      simp only [ipviGo]
      split <;> simp
  | succ m ih =>
      intro total
      cases m with
      | zero => simp [ipviGo]
      | succ k =>
          simp only [ipviGo]
          rw [List.pairwise_flatMap]
          constructor
          · intro i _
            refine List.Pairwise.map _ ?_ (ih (total - i))
            intro w w' hww'
            exact List.Lex.cons hww'
          · refine List.Pairwise.imp_of_mem ?_ (List.pairwise_lt_range _)
            intro i j _ _ hij v hv w hw
            obtain ⟨v', _, rfl⟩ := List.mem_map.mp hv
            obtain ⟨w', _, rfl⟩ := List.mem_map.mp hw
            exact List.Lex.rel (by exact_mod_cast hij)

theorem ipviGo_nodup (n : Nat) (total : Int) : (ipviGo n total).Nodup := by
  refine (ipviGo_pairwise n total).imp ?_
  intro v w h
  intro he
  subst he
  exact irrefl v h

/-! ### Claim theorem for `integer_partition_vector_iter` -/

/-- **C8 (amended).** `integer_partition_vector_iter(total, parts)` yields
nothing when `parts < 0`; when `parts = 0` it yields the empty tuple iff
`total = 0`; and for `parts ≥ 1` and **non-negative** `total` it yields, in
lexicographic order, exactly the `parts`-length tuples of non-negative
integers summing to `total`, each exactly once.  (For `parts = 1` and a
negative `total` the source yields the singleton `(total,)`, which is not a
tuple of non-negative integers: see the counterexample.) -/
theorem claim_C8_integer_partition (total parts : Int) :
    (parts < 0 → integer_partition_vector_iter total parts = []) ∧
    (parts = 0 →
      integer_partition_vector_iter total parts =
        if total = 0 then [[]] else []) ∧
    (0 < parts → 0 ≤ total →
      (integer_partition_vector_iter total parts).Pairwise
          (List.Lex (· < ·)) ∧
      (integer_partition_vector_iter total parts).Nodup ∧
      ∀ v : List Int, v ∈ integer_partition_vector_iter total parts ↔
        (v.length : Int) = parts ∧ (∀ x ∈ v, 0 ≤ x) ∧ v.sum = total) := by
  refine ⟨?_, ?_, ?_⟩
  · intro h
    rw [integer_partition_vector_iter, if_pos h]
  · intro h
    subst h
    rw [integer_partition_vector_iter, if_neg (by omega)]
    rfl
  · intro hparts htot
    have hnn : ¬ parts < 0 := by omega
    rw [integer_partition_vector_iter, if_neg hnn]
    refine ⟨ipviGo_pairwise _ _, ipviGo_nodup _ _, ?_⟩
    intro v
    rw [ipviGo_mem parts.toNat total htot v]
    constructor
    · rintro ⟨hlen, h2, h3⟩
      exact ⟨by omega, h2, h3⟩
    · rintro ⟨hlen, h2, h3⟩
      exact ⟨by omega, h2, h3⟩

/-- Counterexample to C8 as stated: `integer_partition_vector_iter(-1, 1)`
yields the tuple `(-1,)`, which is not a tuple of non-negative integers
(the claim demands that exactly the non-negative `parts`-tuples summing to
`total` are yielded, which for `total = -1` is none). -/
theorem claim_C8_counterexample :
    integer_partition_vector_iter (-1) 1 = [[-1]] ∧
      ¬ ∀ v ∈ integer_partition_vector_iter (-1) 1, ∀ x ∈ v, 0 ≤ x := by
  constructor
  · rfl
  · decide

/-- Witness for C8 at `(total, parts) = (5, 2)`. -/
theorem claim_C8_witness :
    (2 : Int) ≤ 5 ∧ [2, 3] ∈ integer_partition_vector_iter 5 2 := by
  obtain ⟨-, -, h⟩ := claim_C8_integer_partition 5 2
  obtain ⟨-, -, hmem⟩ := h (by decide) (by decide)
  exact ⟨by decide, (hmem [2, 3]).mpr (by decide)⟩

/-! ### `generator_chain` -/

/-- The cost (total number of machine steps, up to a constant factor) of
running the chain of factories `fs` from datum `d`; used to compute a
sufficient fuel value for the loop of `generator_chain`. -/
def chainCost {α : Type _} : List (α → List α) → α → Nat
  | [], _ => 1
  | f :: rest, d => 1 + ((f d).map (fun x => 1 + chainCost rest x)).sum

/-- Cost of the remaining elements of a live generator at a stage whose
successor stages are `fs`. -/
def chainCostList {α : Type _} (fs : List (α → List α)) (l : List α) : Nat :=
  (l.map (fun x => 1 + chainCost fs x)).sum

/-- The body of the `while True` loop of `generator_chain` from
`matchpy/utils.py`, with fuel.  The machine state is the list
`generators` (`none` = the slot holds `None`, `some r` = a live generator
with remaining elements `r`), the current `generator_index` and
`next_data`.  One call is one iteration of the inner advancing loop (pull
from the current stage's generator, instantiating it first if the slot is
`None`), the `StopIteration` handler (discard the generator, back up one
stage, stop if there is nowhere to back up to), or a `yield` followed by
backing up one stage. -/
def runChain {α : Type _} (fs : List (α → List α)) :
    Nat → List (Option (List α)) → Nat → α → List α
  | 0, _, _, _ => []
  | fuel + 1, gens, idx, d =>
      if h : idx < fs.length then
        match (gens.getD idx none).getD ((fs.get ⟨idx, h⟩) d) with
        | [] =>
            if idx = 0 then []
            else runChain fs fuel (gens.set idx none) (idx - 1) d
        | x :: rest => runChain fs fuel (gens.set idx (some rest)) (idx + 1) x
      else
        d :: runChain fs fuel gens (idx - 1) d

/-- `generator_chain(initial_data, *factories)` from `matchpy/utils.py`.
With zero factories it yields `initial_data` once; otherwise it runs the
explicit (non-recursive) depth-first backtracking loop, started with all
generator slots `None`, index `0` and `next_data = initial_data`.  The
fuel passed to the loop is provably sufficient (`runChain_spec`). -/
def generator_chain {α : Type _} (initial_data : α)
    (factories : List (α → List α)) : List α :=
  if factories.length = 0 then [initial_data]
  else
    runChain factories (2 * chainCost factories initial_data + 1)
      (List.replicate factories.length none) 0 initial_data

/-- Spec-side definition for refinement claim C5, following the spec's
words: the `n`-fold nested loop
`for d1 in f1(d): for d2 in f2(d1): ... yield dn`, i.e. the flattening of
`n` nested loops; with zero factories, the initial datum alone. -/
def nestedLoops {α : Type _} : List (α → List α) → α → List α
  | [], d => [d]
  | f :: rest, d => (f d).flatMap (nestedLoops rest)

/-- The output still to come from the live generators strictly below stage
`idx`, in backtracking order (stage `idx - 1` first). -/
def pendingBelow {α : Type _} (fs : List (α → List α))
    (gens : List (Option (List α))) : Nat → List α
  | 0 => []
  | j + 1 =>
      ((gens.getD j none).getD []).flatMap
        (fun x => nestedLoops (fs.drop (j + 1)) x) ++ pendingBelow fs gens j

/-- Cost counterpart of `pendingBelow`. -/
def pendingCost {α : Type _} (fs : List (α → List α))
    (gens : List (Option (List α))) : Nat → Nat
  | 0 => 0
  | j + 1 =>
      chainCostList (fs.drop (j + 1)) ((gens.getD j none).getD []) +
        pendingCost fs gens j

/-- The list of values the machine will still produce from a given state. -/
def specOf {α : Type _} (fs : List (α → List α))
    (gens : List (Option (List α))) (idx : Nat) (d : α) : List α :=
  (match gens.getD idx none with
   | none => nestedLoops (fs.drop idx) d
   | some r => r.flatMap (fun x => nestedLoops (fs.drop (idx + 1)) x)) ++
    pendingBelow fs gens idx

/-- Cost of a machine state: strictly decreases along every step. -/
def stateCost {α : Type _} (fs : List (α → List α))
    (gens : List (Option (List α))) (idx : Nat) (d : α) : Nat :=
  2 * (match gens.getD idx none with
       | none => chainCost (fs.drop idx) d
       | some r => chainCostList (fs.drop (idx + 1)) r) +
    2 * pendingCost fs gens idx + idx

/-! ### Helper lemmas for the machine proof -/

theorem getD_set_self {β : Type _} (l : List β) (i : Nat) (v d : β)
    (h : i < l.length) : (l.set i v).getD i d = v := by
  simp [List.getD_eq_getElem?_getD, List.getElem?_set_self h]

theorem getD_set_ne {β : Type _} (l : List β) (i j : Nat) (v d : β)
    (h : i ≠ j) : (l.set i v).getD j d = l.getD j d := by
  simp [List.getD_eq_getElem?_getD, List.getElem?_set_ne h]

theorem getD_oob {β : Type _} (l : List β) (j : Nat) (d : β)
    (h : l.length ≤ j) : l.getD j d = d := by
  simp [List.getD_eq_getElem?_getD, List.getElem?_eq_none h]

theorem getD_replicate_none {β : Type _} (n j : Nat) :
    (List.replicate n (none : Option β)).getD j none = none := by
  simp only [List.getD_eq_getElem?_getD, List.getElem?_replicate]
  split <;> rfl

theorem chainCost_pos {α : Type _} (fs : List (α → List α)) (d : α) :
    0 < chainCost fs d := by
  cases fs <;> simp [chainCost]

theorem chainCost_cons {α : Type _} (f : α → List α) (fs : List (α → List α))
    (d : α) : chainCost (f :: fs) d = 1 + chainCostList fs (f d) := rfl

theorem chainCostList_cons {α : Type _} (fs : List (α → List α)) (x : α)
    (l : List α) :
    chainCostList fs (x :: l) = 1 + chainCost fs x + chainCostList fs l := by
  simp [chainCostList]

theorem pendingBelow_set {α : Type _} (fs : List (α → List α))
    (gens : List (Option (List α))) (i : Nat) (v : Option (List α)) :
    ∀ k, k ≤ i → pendingBelow fs (gens.set i v) k = pendingBelow fs gens k := by
  intro k
  induction k with
  | zero => intro _; rfl
  | succ j ih =>
      intro hk
      simp only [pendingBelow]
      rw [getD_set_ne gens i j v none (by omega), ih (by omega)]

theorem pendingCost_set {α : Type _} (fs : List (α → List α))
    (gens : List (Option (List α))) (i : Nat) (v : Option (List α)) :
    ∀ k, k ≤ i → pendingCost fs (gens.set i v) k = pendingCost fs gens k := by
  intro k
  induction k with
  | zero => intro _; rfl
  | succ j ih =>
      intro hk
      simp only [pendingCost]
      rw [getD_set_ne gens i j v none (by omega), ih (by omega)]

theorem runChain_spec {α : Type _} (fs : List (α → List α)) (fuel : Nat) :
    ∀ (gens : List (Option (List α))) (idx : Nat) (d : α),
      fs ≠ [] →
      gens.length = fs.length → idx ≤ fs.length →
      (∀ j, idx < j → gens.getD j none = none) →
      (∀ j, j < idx → gens.getD j none ≠ none) →
      stateCost fs gens idx d ≤ fuel →
      runChain fs fuel gens idx d = specOf fs gens idx d := by
  induction fuel with
  | zero =>
      intro gens idx d hne hlen hidx hup hdown hcost
      have hidx0 : idx = 0 := by
        simp only [stateCost] at hcost
        omega
      subst hidx0
      rcases hslot : gens.getD 0 none with _ | r
      · simp only [stateCost, hslot] at hcost
        have := chainCost_pos (fs.drop 0) d
        omega
      · simp only [stateCost, hslot] at hcost
        cases r with
        | nil =>
            have h1 : runChain fs 0 gens 0 d = [] := rfl
            have h2 : specOf fs gens 0 d = [] := by
              simp only [specOf, hslot, pendingBelow]
              simp
            rw [h1, h2]
        | cons x rest =>
            rw [chainCostList_cons] at hcost
            omega
  | succ fuel ih =>
      intro gens idx d hne hlen hidx hup hdown hcost
      have hn : 0 < fs.length := by
        cases fs
        · exact absurd rfl hne
        · simp
      by_cases h : idx < fs.length
      · have hdrop : fs.drop idx = fs.get ⟨idx, h⟩ :: fs.drop (idx + 1) := by
          rw [List.drop_eq_getElem_cons h]
          rfl
        rcases hslot : gens.getD idx none with _ | r
        · -- The slot holds None: instantiate the factory.
          rcases hfd : (fs.get ⟨idx, h⟩) d with _ | ⟨x, rest⟩
          · -- StopIteration immediately: back up (or stop at stage 0).
            have hcur : runChain fs (fuel + 1) gens idx d =
                if idx = 0 then []
                else runChain fs fuel (gens.set idx none) (idx - 1) d := by
              simp only [runChain, dif_pos h, hslot, Option.getD_none, hfd]
            have hspecold : specOf fs gens idx d = pendingBelow fs gens idx := by
              simp only [specOf, hslot, hdrop, nestedLoops, hfd]
              simp
            rcases Nat.eq_zero_or_pos idx with hidx0 | hidxpos
            · subst hidx0
              rw [hcur, if_pos rfl, hspecold]
              rfl
            · obtain ⟨j, rfl⟩ : ∃ j, idx = j + 1 := ⟨idx - 1, by omega⟩
              obtain ⟨r', hr'⟩ := Option.ne_none_iff_exists'.mp
                (hdown j (by omega))
              rw [hcur, if_neg (by omega)]
              have hlen' : (gens.set (j + 1) none).length = fs.length := by
                simp [hlen]
              have hup' : ∀ j', j + 1 - 1 < j' →
                  (gens.set (j + 1) none).getD j' none = none := by
                intro j' hj'
                by_cases hj1 : j' = j + 1
                · subst hj1
                  exact getD_set_self gens (j + 1) none none (by omega)
                · rw [getD_set_ne gens _ _ _ _ (by omega)]
                  exact hup j' (by omega)
              have hdown' : ∀ j', j' < j + 1 - 1 →
                  (gens.set (j + 1) none).getD j' none ≠ none := by
                intro j' hj'
                rw [getD_set_ne gens _ _ _ _ (by omega)]
                exact hdown j' (by omega)
              have hslotj : (gens.set (j + 1) none).getD j none = some r' := by
                rw [getD_set_ne gens _ _ _ _ (by omega)]
                exact hr'
              have hpc : pendingCost fs gens (j + 1) =
                  chainCostList (fs.drop (j + 1)) r' + pendingCost fs gens j := by
                simp only [pendingCost, hr', Option.getD_some]
              have hcost' : stateCost fs (gens.set (j + 1) none) (j + 1 - 1) d ≤
                  fuel := by
                simp only [stateCost, hslotj, Nat.add_sub_cancel]
                rw [pendingCost_set fs gens (j + 1) none j (by omega)]
                simp only [stateCost, hslot, hdrop, chainCost_cons, hfd] at hcost
                simp only [chainCostList, List.map_nil, List.sum_nil] at hcost
                rw [hpc] at hcost
                omega
              rw [ih (gens.set (j + 1) none) (j + 1 - 1) d hne hlen' (by omega)
                hup' hdown' hcost']
              rw [hspecold]
              simp only [Nat.add_sub_cancel, specOf, hslotj]
              rw [pendingBelow_set fs gens (j + 1) none j (by omega)]
              simp only [pendingBelow, hr', Option.getD_some]
          · -- The fresh generator yields x: advance to the next stage.
            have hcur : runChain fs (fuel + 1) gens idx d =
                runChain fs fuel (gens.set idx (some rest)) (idx + 1) x := by
              simp only [runChain, dif_pos h, hslot, Option.getD_none, hfd]
            have hlen' : (gens.set idx (some rest)).length = fs.length := by
              simp [hlen]
            have hup' : ∀ j', idx + 1 < j' →
                (gens.set idx (some rest)).getD j' none = none := by
              intro j' hj'
              rw [getD_set_ne gens _ _ _ _ (by omega)]
              exact hup j' (by omega)
            have hdown' : ∀ j', j' < idx + 1 →
                (gens.set idx (some rest)).getD j' none ≠ none := by
              intro j' hj'
              by_cases hj1 : j' = idx
              · rw [hj1, getD_set_self gens idx (some rest) none (by omega)]
                simp
              · rw [getD_set_ne gens _ _ _ _ (by omega)]
                exact hdown j' (by omega)
            have hslot1 : (gens.set idx (some rest)).getD (idx + 1) none =
                none := by
              rw [getD_set_ne gens _ _ _ _ (by omega)]
              by_cases hend : idx + 1 < fs.length
              · exact hup (idx + 1) (by omega)
              · exact getD_oob gens (idx + 1) none (by omega)
            have hslotidx : (gens.set idx (some rest)).getD idx none =
                some rest := getD_set_self gens idx (some rest) none (by omega)
            have hcost' : stateCost fs (gens.set idx (some rest)) (idx + 1) x ≤
                fuel := by
              simp only [stateCost, hslot1, hslotidx, pendingCost]
              rw [pendingCost_set fs gens idx (some rest) idx (by omega)]
              simp only [Option.getD_some]
              simp only [stateCost, hslot, hdrop, chainCost_cons, hfd,
                chainCostList_cons] at hcost
              have hcost2 : 2 * (1 + (1 + chainCost (List.drop (idx + 1) fs) x +
                  chainCostList (List.drop (idx + 1) fs) rest)) +
                  2 * pendingCost fs gens idx + idx ≤ fuel + 1 := hcost
              clear hcost
              show 2 * chainCost (List.drop (idx + 1) fs) x +
                2 * (chainCostList (List.drop (idx + 1) fs) rest +
                  pendingCost fs gens idx) + (idx + 1) ≤ fuel
              omega
            rw [hcur, ih (gens.set idx (some rest)) (idx + 1) x hne hlen'
              (by omega) hup' hdown' hcost']
            simp only [specOf, hslot1, hslotidx, pendingBelow, Option.getD_some]
            rw [pendingBelow_set fs gens idx (some rest) idx (by omega)]
            simp only [hslot, hdrop, nestedLoops, hfd, List.flatMap_cons,
              List.append_assoc]
        · -- The slot holds a live generator with remaining elements r.
          cases r with
          | nil =>
              -- StopIteration: back up (or stop at stage 0).
              have hcur : runChain fs (fuel + 1) gens idx d =
                  if idx = 0 then []
                  else runChain fs fuel (gens.set idx none) (idx - 1) d := by
                simp only [runChain, dif_pos h, hslot, Option.getD_some]
              have hspecold : specOf fs gens idx d =
                  pendingBelow fs gens idx := by
                simp only [specOf, hslot]
                simp
              rcases Nat.eq_zero_or_pos idx with hidx0 | hidxpos
              · subst hidx0
                rw [hcur, if_pos rfl, hspecold]
                rfl
              · obtain ⟨j, rfl⟩ : ∃ j, idx = j + 1 := ⟨idx - 1, by omega⟩
                obtain ⟨r', hr'⟩ := Option.ne_none_iff_exists'.mp
                  (hdown j (by omega))
                rw [hcur, if_neg (by omega)]
                have hlen' : (gens.set (j + 1) none).length = fs.length := by
                  simp [hlen]
                have hup' : ∀ j', j + 1 - 1 < j' →
                    (gens.set (j + 1) none).getD j' none = none := by
                  intro j' hj'
                  by_cases hj1 : j' = j + 1
                  · subst hj1
                    exact getD_set_self gens (j + 1) none none (by omega)
                  · rw [getD_set_ne gens _ _ _ _ (by omega)]
                    exact hup j' (by omega)
                have hdown' : ∀ j', j' < j + 1 - 1 →
                    (gens.set (j + 1) none).getD j' none ≠ none := by
                  intro j' hj'
                  rw [getD_set_ne gens _ _ _ _ (by omega)]
                  exact hdown j' (by omega)
                have hslotj : (gens.set (j + 1) none).getD j none = some r' := by
                  rw [getD_set_ne gens _ _ _ _ (by omega)]
                  exact hr'
                have hpc : pendingCost fs gens (j + 1) =
                    chainCostList (fs.drop (j + 1)) r' +
                      pendingCost fs gens j := by
                  simp only [pendingCost, hr', Option.getD_some]
                have hcost' : stateCost fs (gens.set (j + 1) none)
                    (j + 1 - 1) d ≤ fuel := by
                  simp only [stateCost, hslotj, Nat.add_sub_cancel]
                  rw [pendingCost_set fs gens (j + 1) none j (by omega)]
                  simp only [stateCost, hslot] at hcost
                  simp only [chainCostList, List.map_nil, List.sum_nil] at hcost
                  rw [hpc] at hcost
                  omega
                rw [ih (gens.set (j + 1) none) (j + 1 - 1) d hne hlen' (by omega)
                  hup' hdown' hcost']
                rw [hspecold]
                simp only [Nat.add_sub_cancel, specOf, hslotj]
                rw [pendingBelow_set fs gens (j + 1) none j (by omega)]
                simp only [pendingBelow, hr', Option.getD_some]
          | cons x rest =>
              -- Pull x from the live generator and advance.
              have hcur : runChain fs (fuel + 1) gens idx d =
                  runChain fs fuel (gens.set idx (some rest)) (idx + 1) x := by
                simp only [runChain, dif_pos h, hslot, Option.getD_some]
              have hlen' : (gens.set idx (some rest)).length = fs.length := by
                simp [hlen]
              have hup' : ∀ j', idx + 1 < j' →
                  (gens.set idx (some rest)).getD j' none = none := by
                intro j' hj'
                rw [getD_set_ne gens _ _ _ _ (by omega)]
                exact hup j' (by omega)
              have hdown' : ∀ j', j' < idx + 1 →
                  (gens.set idx (some rest)).getD j' none ≠ none := by
                intro j' hj'
                by_cases hj1 : j' = idx
                · rw [hj1, getD_set_self gens idx (some rest) none (by omega)]
                  simp
                · rw [getD_set_ne gens _ _ _ _ (by omega)]
                  exact hdown j' (by omega)
              have hslot1 : (gens.set idx (some rest)).getD (idx + 1) none =
                  none := by
                rw [getD_set_ne gens _ _ _ _ (by omega)]
                by_cases hend : idx + 1 < fs.length
                · exact hup (idx + 1) (by omega)
                · exact getD_oob gens (idx + 1) none (by omega)
              have hslotidx : (gens.set idx (some rest)).getD idx none =
                  some rest := getD_set_self gens idx (some rest) none (by omega)
              have hcost' : stateCost fs (gens.set idx (some rest))
                  (idx + 1) x ≤ fuel := by
                simp only [stateCost, hslot1, hslotidx, pendingCost]
                rw [pendingCost_set fs gens idx (some rest) idx (by omega)]
                simp only [Option.getD_some]
                simp only [stateCost, hslot, chainCostList_cons] at hcost
                have hcost2 : 2 * (1 + chainCost (List.drop (idx + 1) fs) x +
                    chainCostList (List.drop (idx + 1) fs) rest) +
                    2 * pendingCost fs gens idx + idx ≤ fuel + 1 := hcost
                clear hcost
                show 2 * chainCost (List.drop (idx + 1) fs) x +
                  2 * (chainCostList (List.drop (idx + 1) fs) rest +
                    pendingCost fs gens idx) + (idx + 1) ≤ fuel
                omega
              rw [hcur, ih (gens.set idx (some rest)) (idx + 1) x hne hlen'
                (by omega) hup' hdown' hcost']
              simp only [specOf, hslot1, hslotidx, pendingBelow,
                Option.getD_some]
              rw [pendingBelow_set fs gens idx (some rest) idx (by omega)]
              simp only [hslot, List.flatMap_cons, List.append_assoc]
      · -- idx = fs.length: yield the current datum and back up one stage.
        have hidxeq : idx = fs.length := by omega
        obtain ⟨j, hj⟩ : ∃ j, idx = j + 1 := ⟨idx - 1, by omega⟩
        have hcur : runChain fs (fuel + 1) gens idx d =
            d :: runChain fs fuel gens (idx - 1) d := by
          simp only [runChain, dif_neg h]
        obtain ⟨r', hr'⟩ := Option.ne_none_iff_exists'.mp (hdown j (by omega))
        have hslotidx : gens.getD idx none = none :=
          getD_oob gens idx none (by omega)
        have hdropn : fs.drop idx = [] := by
          rw [hidxeq]
          exact List.drop_length fs
        have hpc : pendingCost fs gens idx =
            chainCostList (fs.drop idx) r' + pendingCost fs gens j := by
          rw [hj]
          simp only [pendingCost, hr', Option.getD_some]
        have hcost' : stateCost fs gens (idx - 1) d ≤ fuel := by
          have hj1 : idx - 1 = j := by omega
          rw [hj1]
          simp only [stateCost, hr']
          have hj2 : j + 1 = idx := by omega
          rw [hj2]
          simp only [stateCost, hslotidx, hdropn, chainCost, hpc] at hcost
          rw [hdropn]
          have hcost2 : 2 * 1 + 2 * (chainCostList [] r' +
              pendingCost fs gens j) + idx ≤ fuel + 1 := hcost
          clear hcost
          show 2 * chainCostList [] r' +
            2 * pendingCost fs gens j + j ≤ fuel
          omega
        have hup' : ∀ j', idx - 1 < j' → gens.getD j' none = none := by
          intro j' hj'
          by_cases hin : j' < idx
          · omega
          · exact getD_oob gens j' none (by omega)
        have hdown' : ∀ j', j' < idx - 1 → gens.getD j' none ≠ none := by
          intro j' hj'
          exact hdown j' (by omega)
        rw [hcur, ih gens (idx - 1) d hne hlen (by omega) hup' hdown' hcost']
        have hj1 : idx - 1 = j := by omega
        rw [hj1]
        simp only [specOf, hr', hslotidx, hdropn, nestedLoops]
        have hj2 : j + 1 = idx := by omega
        rw [hj2, hj]
        simp only [pendingBelow, hr', Option.getD_some, hdropn]
        rw [← hj, hdropn]
        simp

theorem generator_chain_eq_nestedLoops {α : Type _} (initial_data : α)
    (factories : List (α → List α)) :
    generator_chain initial_data factories =
      nestedLoops factories initial_data := by
  by_cases h : factories.length = 0
  · have hnil : factories = [] := List.length_eq_zero.mp h
    subst hnil
    rfl
  · have hne : factories ≠ [] := by
      intro hcon
      subst hcon
      exact h rfl
    rw [generator_chain, if_neg h]
    have hup : ∀ j, 0 < j →
        (List.replicate factories.length
          (none : Option (List α))).getD j none = none := by
      intro j _
      exact getD_replicate_none _ _
    have hslot0 : (List.replicate factories.length
        (none : Option (List α))).getD 0 none = none :=
      getD_replicate_none _ _
    have hcost : stateCost factories
        (List.replicate factories.length none) 0 initial_data ≤
        2 * chainCost factories initial_data + 1 := by
      simp only [stateCost, hslot0, List.drop_zero, pendingCost]
      omega
    rw [runChain_spec factories (2 * chainCost factories initial_data + 1)
      (List.replicate factories.length none) 0 initial_data hne
      (by simp) (by omega) hup (by omega) hcost]
    simp only [specOf, hslot0, List.drop_zero, pendingBelow]
    simp

/-! ### The commutative sequence-variable partitioner

Python dicts are embedded as insertion-ordered association lists with
unique keys; a Python `Multiset` is its internal dict from elements to
multiplicities, so `Mset T = List (T × Int)`; the substitution fragments
built by the partitioner are dicts from variable names (`none` is the
Python key `None` of an anonymous variable) to multisets. -/

/-- Lookup in a Python dict (first matching key). -/
def alGet {κ β : Type _} [DecidableEq κ] : List (κ × β) → κ → Option β
  | [], _ => none
  | (k0, v0) :: rest, k => if k0 = k then some v0 else alGet rest k

/-- `d[k] = v` on a Python dict: replace the value of an existing key in
place, otherwise append the new key. -/
def alSet {κ β : Type _} [DecidableEq κ] :
    List (κ × β) → κ → β → List (κ × β)
  | [], k, v => [(k, v)]
  | (k0, v0) :: rest, k, v =>
      if k0 = k then (k0, v) :: rest else (k0, v0) :: alSet rest k v

/-- `k in d` on a Python dict. -/
def alContains {κ β : Type _} [DecidableEq κ] (d : List (κ × β)) (k : κ) :
    Bool :=
  (alGet d k).isSome

/-- `del d[k]` on a Python dict. -/
def alRemove {κ β : Type _} [DecidableEq κ] :
    List (κ × β) → κ → List (κ × β)
  | [], _ => []
  | (k0, v0) :: rest, k =>
      if k0 = k then rest else (k0, v0) :: alRemove rest k

/-- The internal dict of a Python `Multiset` over `T`. -/
abbrev Mset (T : Type _) : Type _ := List (T × Int)

/-- `m[t]` on a `Multiset` (missing elements have multiplicity 0). -/
def msetGet {T : Type _} [DecidableEq T] (m : Mset T) (t : T) : Int :=
  (alGet m t).getD 0

/-- `m[t] = c` on a `Multiset`. -/
def msetSet {T : Type _} [DecidableEq T] (m : Mset T) (t : T) (c : Int) :
    Mset T :=
  alSet m t c

/-- `len(m)` on a `Multiset`: the total multiplicity. -/
def msetLen {T : Type _} (m : Mset T) : Int :=
  (m.map (fun p => p.2)).sum

/-- Well-formedness of a `Multiset`'s internal dict: distinct elements
with positive multiplicities (Python's `Multiset` never stores zero or
negative counts). -/
def msetWF {T : Type _} (m : Mset T) : Prop :=
  (m.map (fun p => p.1)).Nodup ∧ ∀ p ∈ m, 0 < p.2

/-- `VariableWithCount` from `matchpy/utils.py` (`name = none` is the
anonymous variable; the data model requires `count` positive and
`minimum` non-negative). -/
structure VariableWithCount where
  name : Option String
  count : Int
  minimum : Int
deriving DecidableEq

/-- A substitution fragment: a Python dict from variable names to
multisets. -/
abbrev Subst (T : Type _) : Type _ := List (Option String × Mset T)

/-- `subst[name][value] = count` (the write performed inside the per-value
factory). -/
def writeVar {T : Type _} [DecidableEq T] (s : Subst T) (nm : Option String)
    (t : T) (c : Int) : Subst T :=
  alSet s nm (msetSet ((alGet s nm).getD []) t c)

/-- `_make_variable_generator_factory(value, total, variables)` from
`matchpy/utils.py`: for each solution of
`solve_linear_diop(total, *var_counts)`, set
`subst[var.name][value] = count` for every variable and yield the updated
substitution.  The source propagates the solver's exception; the claims
below only invoke the factory where the solver is proved to succeed
(positive counts), so the error case is mapped to the empty enumeration. -/
def make_variable_generator_factory {T : Type _} [DecidableEq T] (value : T)
    (total : Int) (vars : List VariableWithCount) :
    Subst T → List (Subst T) :=
  let var_counts := vars.map (fun v => v.count)
  fun subst =>
    match solve_linear_diop total var_counts with
    | .error _ => []
    | .ok solutions =>
        solutions.map (fun solution =>
          (vars.zip solution).foldl
            (fun s vc => writeVar s vc.1.name value vc.2) subst)

/-- The `count > 1` loop of `_commutative_single_variable_partiton_iter`:
`new_values[element] = element_count // count`, with an early `return`
(`none`) as soon as one multiplicity is not divisible by `count`. -/
def singleGo {T : Type _} [DecidableEq T] (count : Int) :
    List (T × Int) → Mset T → Option (Mset T)
  | [], acc => some acc
  | (t, m) :: rest, acc =>
      if m.fmod count ≠ 0 then none
      else singleGo count rest (msetSet acc t (m.fdiv count))

/-- `_commutative_single_variable_partiton_iter(values, variable)` from
`matchpy/utils.py`. -/
def commutative_single_variable_partiton_iter {T : Type _} [DecidableEq T]
    (values : Mset T) (v : VariableWithCount) : List (Subst T) :=
  if v.count = 1 then
    if v.minimum ≤ msetLen values then
      [if v.name.isSome then [(v.name, values)] else []]
    else []
  else
    match singleGo v.count values [] with
    | none => []
    | some new_values =>
        if v.minimum ≤ msetLen new_values then
          [if v.name.isSome then [(v.name, new_values)] else []]
        else []

/-- `commutative_sequence_variable_partition_iter(values, variables)` from
`matchpy/utils.py`, read per fragment (functionally): the
`del subst[None]` of the source is rendered here as a pure removal on the
yielded fragment.  In the source that `del` destructively mutates the one
dict object shared with every suspended factory generator, so after the
first valid fragment with an anonymous variable the next pull raises
`KeyError` at `subst[var.name][value] = count`; that shared-dict run is
modelled by `commutative_sequence_variable_partition_run` below.  This
functional reading agrees with the source exactly whenever every variable
is named: then `None` is never a key, the `del` never executes, and each
stage overwrites its own value's entries on every pull, so the shared
dict at each yield equals the functional composition. -/
def commutative_sequence_variable_partition_iter {T : Type _} [DecidableEq T]
    (values : Mset T) (vars : List VariableWithCount) : List (Subst T) :=
  match vars with
  | [v] => commutative_single_variable_partiton_iter values v
  | _ =>
      let generators := values.map
        (fun p => make_variable_generator_factory p.1 p.2 vars)
      let initial : Subst T := vars.foldl (fun d v => alSet d v.name []) []
      (generator_chain initial generators).filterMap (fun subst =>
        if vars.all
            (fun v => v.minimum ≤ msetLen ((alGet subst v.name).getD []))
        then some (if alContains subst none then alRemove subst none else subst)
        else none)

/-- The multiplicity assigned to the variable named `nm` at element `t` by
the fragment `s`. -/
def msGetName {T : Type _} [DecidableEq T] (s : Subst T) (nm : Option String)
    (t : T) : Int :=
  msetGet ((alGet s nm).getD []) t

/-- The claim's reconstruction sum: over all variables, `count` times the
assigned sub-multiset, at element `t`. -/
def sumOverVars {T : Type _} [DecidableEq T] (s : Subst T)
    (vars : List VariableWithCount) (t : T) : Int :=
  (vars.map (fun v => v.count * msGetName s v.name t)).sum

/-! ### Association-list lemmas -/

theorem alGet_alSet_self {κ β : Type _} [DecidableEq κ] (d : List (κ × β))
    (k : κ) (v : β) : alGet (alSet d k v) k = some v := by
  induction d with
  | nil => simp [alGet, alSet]
  | cons p rest ih =>
      rcases p with ⟨k0, v0⟩
      by_cases h : k0 = k
      · subst h
        simp [alGet, alSet]
      · simp only [alSet, if_neg h, alGet]
        exact ih

theorem alGet_alSet_ne {κ β : Type _} [DecidableEq κ] (d : List (κ × β))
    (k k' : κ) (v : β) (h : k' ≠ k) :
    alGet (alSet d k v) k' = alGet d k' := by
  induction d with
  | nil =>
      simp only [alSet, alGet]
      rw [if_neg (fun hc => h hc.symm)]
  | cons p rest ih =>
      rcases p with ⟨k0, v0⟩
      by_cases h0 : k0 = k
      · subst h0
        simp only [alSet, if_pos rfl, alGet]
        rw [if_neg (fun hc => h hc.symm), if_neg (fun hc => h hc.symm)]
      · simp only [alSet, if_neg h0, alGet]
        by_cases h1 : k0 = k'
        · rw [if_pos h1, if_pos h1]
        · rw [if_neg h1, if_neg h1]
          exact ih

theorem alGet_eq_none_iff {κ β : Type _} [DecidableEq κ] (d : List (κ × β))
    (k : κ) : alGet d k = none ↔ k ∉ d.map (fun p => p.1) := by
  induction d with
  | nil => simp [alGet]
  | cons p rest ih =>
      rcases p with ⟨k0, v0⟩
      simp only [alGet, List.map_cons, List.mem_cons]
      by_cases h : k0 = k
      · subst h
        simp
      · rw [if_neg h, ih]
        constructor
        · intro h1 h2
          rcases h2 with h2 | h2
          · exact h (h2.symm)
          · exact h1 h2
        · intro h1 h2
          exact h1 (Or.inr h2)

theorem alGet_mem {κ β : Type _} [DecidableEq κ] (d : List (κ × β)) (k : κ)
    (v : β) (h : alGet d k = some v) : (k, v) ∈ d := by
  induction d with
  | nil => simp [alGet] at h
  | cons p rest ih =>
      rcases p with ⟨k0, v0⟩
      simp only [alGet] at h
      by_cases h0 : k0 = k
      · subst h0
        rw [if_pos rfl] at h
        simp only [Option.some.injEq] at h
        subst h
        simp
      · rw [if_neg h0] at h
        exact List.mem_cons_of_mem _ (ih h)

theorem msetGet_msetSet_self {T : Type _} [DecidableEq T] (m : Mset T)
    (t : T) (c : Int) : msetGet (msetSet m t c) t = c := by
  simp [msetGet, msetSet, alGet_alSet_self]

theorem msetGet_msetSet_ne {T : Type _} [DecidableEq T] (m : Mset T)
    (t t' : T) (c : Int) (h : t' ≠ t) :
    msetGet (msetSet m t c) t' = msetGet m t' := by
  simp [msetGet, msetSet, alGet_alSet_ne m t t' c h]

theorem alGet_writeVar_ne {T : Type _} [DecidableEq T] (s : Subst T)
    (nm nm' : Option String) (t : T) (c : Int) (h : nm' ≠ nm) :
    alGet (writeVar s nm t c) nm' = alGet s nm' := by
  simp [writeVar, alGet_alSet_ne s nm nm' _ h]

theorem msGetName_writeVar_self {T : Type _} [DecidableEq T] (s : Subst T)
    (nm : Option String) (t : T) (c : Int) :
    msGetName (writeVar s nm t c) nm t = c := by
  simp [msGetName, writeVar, alGet_alSet_self, msetGet_msetSet_self]

theorem msGetName_writeVar_other_point {T : Type _} [DecidableEq T]
    (s : Subst T) (nm nm' : Option String) (t t' : T) (c : Int)
    (h : t' ≠ t) :
    msGetName (writeVar s nm t c) nm' t' = msGetName s nm' t' := by
  by_cases h0 : nm' = nm
  · subst h0
    simp [msGetName, writeVar, alGet_alSet_self, msetGet_msetSet_ne _ _ _ _ h]
  · simp [msGetName, alGet_writeVar_ne s nm nm' t c h0]

/-! ### Behaviour of the per-value writes -/

theorem writeAll_untouched {T : Type _} [DecidableEq T] (t : T) :
    ∀ (vs : List VariableWithCount) (sol : List Int) (s : Subst T)
      (nm : Option String), nm ∉ vs.map (fun v => v.name) →
      alGet ((vs.zip sol).foldl
        (fun s vc => writeVar s vc.1.name t vc.2) s) nm = alGet s nm := by
  intro vs
  induction vs with
  | nil => intro sol s nm _; simp
  | cons v vs ih =>
      intro sol s nm hnm
      cases sol with
      | nil => simp
      | cons c cs =>
          simp only [List.map_cons, List.mem_cons, not_or] at hnm
          simp only [List.zip_cons_cons, List.foldl_cons]
          rw [ih cs _ nm hnm.2]
          exact alGet_writeVar_ne s v.name nm t c hnm.1

theorem writeAll_sum {T : Type _} [DecidableEq T] (t : T) :
    ∀ (vs : List VariableWithCount) (sol : List Int) (s : Subst T),
      (vs.map (fun v => v.name)).Nodup → sol.length = vs.length →
      sumOverVars ((vs.zip sol).foldl
        (fun s vc => writeVar s vc.1.name t vc.2) s) vs t =
        dotProd (vs.map (fun v => v.count)) sol := by
  intro vs
  induction vs with
  | nil => intro sol s _ _; simp [sumOverVars, dotProd]
  | cons v vs ih =>
      intro sol s hnodup hlen
      cases sol with
      | nil => simp at hlen
      | cons c cs =>
          simp only [List.zip_cons_cons, List.foldl_cons, List.map_cons,
            dotProd_cons]
          simp only [List.map_cons, List.nodup_cons] at hnodup
          simp only [List.length_cons] at hlen
          have hname : v.name ∉ vs.map (fun v => v.name) := hnodup.1
          simp only [sumOverVars, List.map_cons, List.sum_cons]
          have h1 : msGetName ((vs.zip cs).foldl
              (fun s vc => writeVar s vc.1.name t vc.2)
              (writeVar s v.name t c)) v.name t = c := by
            unfold msGetName
            rw [writeAll_untouched t vs cs _ v.name hname]
            have := msGetName_writeVar_self s v.name t c
            unfold msGetName at this
            exact this
          rw [h1]
          have h2 := ih cs (writeVar s v.name t c) hnodup.2 (by omega)
          simp only [sumOverVars] at h2
          rw [h2]

theorem writeAll_other_point {T : Type _} [DecidableEq T] (t t' : T)
    (ht : t' ≠ t) :
    ∀ (vs : List VariableWithCount) (sol : List Int) (s : Subst T)
      (nm : Option String),
      msGetName ((vs.zip sol).foldl
        (fun s vc => writeVar s vc.1.name t vc.2) s) nm t' =
        msGetName s nm t' := by
  intro vs
  induction vs with
  | nil => intro sol s nm; simp
  | cons v vs ih =>
      intro sol s nm
      cases sol with
      | nil => simp
      | cons c cs =>
          simp only [List.zip_cons_cons, List.foldl_cons]
          rw [ih cs (writeVar s v.name t c) nm]
          exact msGetName_writeVar_other_point s v.name nm t t' c ht

theorem sumOverVars_other_point {T : Type _} [DecidableEq T] (t t' : T)
    (ht : t' ≠ t) (vs vsAll : List VariableWithCount) (sol : List Int)
    (s : Subst T) :
    sumOverVars ((vs.zip sol).foldl
      (fun s vc => writeVar s vc.1.name t vc.2) s) vsAll t' =
      sumOverVars s vsAll t' := by
  unfold sumOverVars
  congr 1
  apply List.map_congr_left
  intro v _
  rw [writeAll_other_point t t' ht vs sol s v.name]

/-! ### The chain of per-value factories -/

theorem factory_char {T : Type _} [DecidableEq T] (t : T) (m : Int)
    (vars : List VariableWithCount) (hne : vars ≠ [])
    (hcounts : ∀ v ∈ vars, 0 < v.count) (hm : 0 ≤ m) :
    ∃ sols, solve_linear_diop m (vars.map (fun v => v.count)) = .ok sols ∧
      make_variable_generator_factory t m vars =
        (fun subst => sols.map (fun solution =>
          (vars.zip solution).foldl
            (fun s vc => writeVar s vc.1.name t vc.2) subst)) ∧
      ∀ sol ∈ sols, sol.length = vars.length ∧ (∀ x ∈ sol, 0 ≤ x) ∧
        dotProd (vars.map (fun v => v.count)) sol = m := by
  obtain ⟨sols, hok, hnd, hmem⟩ := solveGo_ok
    (vars.map (fun v => v.count)).length m (vars.map (fun v => v.count))
    (by simpa using hne) (by omega)
    (by
      intro c hc
      obtain ⟨v, hv, rfl⟩ := List.mem_map.mp hc
      exact hcounts v hv)
    hm
  refine ⟨sols, hok, ?_, ?_⟩
  · funext subst
    simp only [make_variable_generator_factory]
    rw [show solve_linear_diop m (vars.map (fun v => v.count)) = .ok sols
      from hok]
  · intro sol hs
    obtain ⟨h1, h2, h3⟩ := (hmem sol).mp hs
    exact ⟨by simpa using h1, h2, h3⟩

theorem factory_mem_shape {T : Type _} [DecidableEq T] (t : T) (m : Int)
    (vars : List VariableWithCount) (s₀ s1 : Subst T)
    (h : s1 ∈ make_variable_generator_factory t m vars s₀) :
    ∃ sol : List Int, s1 = (vars.zip sol).foldl
      (fun s vc => writeVar s vc.1.name t vc.2) s₀ := by
  simp only [make_variable_generator_factory] at h
  cases hok : solve_linear_diop m (vars.map fun v => v.count) with
  | error e =>
      rw [hok] at h
      simp at h
  | ok sols =>
      rw [hok] at h
      simp only [List.mem_map] at h
      obtain ⟨sol, _, rfl⟩ := h
      exact ⟨sol, rfl⟩

theorem chain_untouched {T : Type _} [DecidableEq T]
    (vars : List VariableWithCount) :
    ∀ (items : List (T × Int)) (s₀ s : Subst T),
      s ∈ nestedLoops
        (items.map (fun p => make_variable_generator_factory p.1 p.2 vars))
        s₀ →
      ∀ nm, nm ∉ vars.map (fun v => v.name) → alGet s nm = alGet s₀ nm := by
  intro items
  induction items with
  | nil =>
      intro s₀ s hs nm _
      simp only [List.map_nil, nestedLoops, List.mem_singleton] at hs
      subst hs
      rfl
  | cons p rest ih =>
      intro s₀ s hs nm hnm
      simp only [List.map_cons, nestedLoops, List.mem_flatMap] at hs
      obtain ⟨s1, hs1, hsrest⟩ := hs
      obtain ⟨sol, rfl⟩ := factory_mem_shape p.1 p.2 vars s₀ s1 hs1
      rw [ih _ s hsrest nm hnm]
      exact writeAll_untouched p.1 vars sol s₀ nm hnm

theorem chain_sum_invariant {T : Type _} [DecidableEq T]
    (vars : List VariableWithCount) (hne : vars ≠ [])
    (hnodup : (vars.map (fun v => v.name)).Nodup)
    (hcounts : ∀ v ∈ vars, 0 < v.count) :
    ∀ (items : List (T × Int)), (items.map (fun p => p.1)).Nodup →
      (∀ p ∈ items, 0 < p.2) →
      ∀ (s₀ s : Subst T),
        s ∈ nestedLoops
          (items.map (fun p => make_variable_generator_factory p.1 p.2 vars))
          s₀ →
        ∀ t, sumOverVars s vars t =
          (alGet items t).getD (sumOverVars s₀ vars t) := by
  intro items
  induction items with
  | nil =>
      intro _ _ s₀ s hs t
      simp only [List.map_nil, nestedLoops, List.mem_singleton] at hs
      subst hs
      simp [alGet]
  | cons p rest ih =>
      rcases p with ⟨t0, m0⟩
      intro hkeys hpos s₀ s hs t
      simp only [List.map_cons, nestedLoops, List.mem_flatMap] at hs
      obtain ⟨s1, hs1, hsrest⟩ := hs
      obtain ⟨sols, hok, hfac, hsolprops⟩ := factory_char t0 m0 vars hne
        hcounts (le_of_lt (hpos (t0, m0) (by simp)))
      simp only [hfac, List.mem_map] at hs1
      obtain ⟨sol, hsol, rfl⟩ := hs1
      obtain ⟨hlen, _, hdot⟩ := hsolprops sol hsol
      simp only [List.map_cons, List.nodup_cons] at hkeys
      have hrest := ih hkeys.2 (fun q hq => hpos q (by simp [hq])) _ s hsrest t
      rw [hrest]
      by_cases ht : t = t0
      · subst ht
        have hnone : alGet rest t = none := (alGet_eq_none_iff rest t).mpr
          hkeys.1
        rw [hnone]
        simp only [Option.getD_none]
        simp only [alGet, if_pos rfl, Option.getD_some]
        rw [writeAll_sum t vars sol s₀ hnodup (by omega)]
        exact hdot
      · simp only [alGet, if_neg (show t0 ≠ t from fun hc => ht hc.symm)]
        cases halg : alGet rest t with
        | some mv => simp
        | none =>
            simp only [Option.getD_none]
            rw [sumOverVars_other_point t0 t ht vars vars sol s₀]

/-! ### The initial substitution -/

theorem alSet_values {κ β : Type _} [DecidableEq κ] (d : List (κ × β))
    (k : κ) (v : β) :
    ∀ p ∈ alSet d k v, p ∈ d ∨ p.2 = v := by
  induction d with
  | nil =>
      intro p hp
      simp only [alSet, List.mem_singleton] at hp
      subst hp
      simp
  | cons q rest ih =>
      rcases q with ⟨k0, v0⟩
      intro p hp
      simp only [alSet] at hp
      by_cases h : k0 = k
      · rw [if_pos h] at hp
        rcases List.mem_cons.mp hp with rfl | hp
        · simp
        · exact Or.inl (List.mem_cons_of_mem _ hp)
      · rw [if_neg h] at hp
        rcases List.mem_cons.mp hp with rfl | hp
        · simp
        · rcases ih p hp with h1 | h1
          · exact Or.inl (List.mem_cons_of_mem _ h1)
          · exact Or.inr h1

theorem initial_values {T : Type _} [DecidableEq T] :
    ∀ (vars : List VariableWithCount) (d : Subst T),
      (∀ p ∈ d, p.2 = ([] : Mset T)) →
      ∀ p ∈ vars.foldl (fun d v => alSet d v.name []) d,
        p.2 = ([] : Mset T) := by
  intro vars
  induction vars with
  | nil => intro d hd p hp; exact hd p hp
  | cons v vs ih =>
      intro d hd p hp
      simp only [List.foldl_cons] at hp
      refine ih (alSet d v.name []) ?_ p hp
      intro q hq
      rcases alSet_values d v.name [] q hq with h1 | h1
      · exact hd q h1
      · exact h1

theorem msGetName_initial {T : Type _} [DecidableEq T]
    (vars : List VariableWithCount) (nm : Option String) (t : T) :
    msGetName (vars.foldl (fun d v => alSet d v.name []) []) nm t = 0 := by
  unfold msGetName
  cases halg : alGet (vars.foldl (fun d v => alSet d v.name []) []) nm with
  | none => simp [msetGet, alGet]
  | some mv =>
      have hmem := alGet_mem _ _ _ halg
      have := initial_values vars [] (by simp) (nm, mv) hmem
      simp only at this
      subst this
      simp [msetGet, alGet]

theorem sumOverVars_initial {T : Type _} [DecidableEq T]
    (vars vsAll : List VariableWithCount) (t : T) :
    sumOverVars (vars.foldl (fun d v => alSet d v.name []) []) vsAll t = 0 := by
  unfold sumOverVars
  rw [List.map_congr_left
    (fun v _ => by rw [msGetName_initial vars v.name t] : ∀ v ∈ vsAll, _)]
  simp

theorem alGet_initial_notmem {T : Type _} [DecidableEq T] :
    ∀ (vars : List VariableWithCount) (d : Subst T) (nm : Option String),
      nm ∉ vars.map (fun v => v.name) →
      alGet (vars.foldl (fun d v => alSet d v.name []) d) nm = alGet d nm := by
  intro vars
  induction vars with
  | nil => intro d nm _; rfl
  | cons v vs ih =>
      intro d nm hnm
      simp only [List.map_cons, List.mem_cons, not_or] at hnm
      simp only [List.foldl_cons]
      rw [ih (alSet d v.name []) nm hnm.2]
      exact alGet_alSet_ne d v.name nm [] hnm.1

/-- **C5.** `generator_chain(initial, f1, ..., fn)` yields exactly the same
values in exactly the same order as the `n`-fold nested loop
`for d1 in f1(initial): ... yield dn` (for every `n`, in particular
`n ≥ 4`); with zero factories it yields the initial datum exactly once. -/
theorem claim_C5_generator_chain {α : Type _} (initial_data : α)
    (factories : List (α → List α)) :
    generator_chain initial_data factories =
      nestedLoops factories initial_data ∧
    generator_chain initial_data [] = [initial_data] :=
  ⟨generator_chain_eq_nestedLoops initial_data factories, rfl⟩

/-! ### The single-variable partitioner -/

theorem singleGo_divisible {T : Type _} [DecidableEq T] (c : Int) :
    ∀ (items : List (T × Int)) (acc nv : Mset T),
      singleGo c items acc = some nv → ∀ p ∈ items, p.2.fmod c = 0 := by
  intro items
  induction items with
  | nil => intro acc nv _ p hp; simp at hp
  | cons q rest ih =>
      rcases q with ⟨t0, m0⟩
      intro acc nv h p hp
      simp only [singleGo] at h
      by_cases hdvd : m0.fmod c ≠ 0
      · rw [if_pos hdvd] at h
        cases h
      · rw [if_neg hdvd] at h
        push_neg at hdvd
        rcases List.mem_cons.mp hp with rfl | hp
        · exact hdvd
        · exact ih _ nv h p hp

theorem singleGo_none {T : Type _} [DecidableEq T] (c : Int) :
    ∀ (items : List (T × Int)) (acc : Mset T),
      (∃ p ∈ items, p.2.fmod c ≠ 0) → singleGo c items acc = none := by
  intro items
  induction items with
  | nil => intro acc h; simp at h
  | cons q rest ih =>
      rcases q with ⟨t0, m0⟩
      intro acc h
      simp only [singleGo]
      by_cases hdvd : m0.fmod c ≠ 0
      · rw [if_pos hdvd]
      · rw [if_neg hdvd]
        push_neg at hdvd
        obtain ⟨p, hp, hpd⟩ := h
        rcases List.mem_cons.mp hp with rfl | hp
        · exact absurd hdvd hpd
        · exact ih _ ⟨p, hp, hpd⟩

theorem singleGo_get {T : Type _} [DecidableEq T] (c : Int) :
    ∀ (items : List (T × Int)), (items.map (fun p => p.1)).Nodup →
      ∀ (acc nv : Mset T), singleGo c items acc = some nv →
      ∀ t, msetGet nv t =
        (alGet items t).elim (msetGet acc t) (fun m => m.fdiv c) := by
  intro items
  induction items with
  | nil =>
      intro _ acc nv h t
      simp only [singleGo, Option.some.injEq] at h
      subst h
      simp [alGet, Option.elim]
  | cons q rest ih =>
      rcases q with ⟨t0, m0⟩
      intro hkeys acc nv h t
      simp only [List.map_cons, List.nodup_cons] at hkeys
      simp only [singleGo] at h
      by_cases hdvd : m0.fmod c ≠ 0
      · rw [if_pos hdvd] at h
        cases h
      · rw [if_neg hdvd] at h
        have := ih hkeys.2 _ nv h t
        rw [this]
        by_cases ht : t = t0
        · subst ht
          have hnone : alGet rest t = none :=
            (alGet_eq_none_iff rest t).mpr hkeys.1
          rw [hnone]
          simp [alGet, msetGet_msetSet_self]
        · simp only [alGet, if_neg (show t0 ≠ t from fun hc => ht hc.symm)]
          cases halg : alGet rest t with
          | some mv => simp [Option.elim]
          | none =>
              simp only [Option.elim]
              exact msetGet_msetSet_ne acc t0 t _ (fun hc => ht hc)

/-! ### Claim theorems for the partitioner -/

theorem partition_iter_multi {T : Type _} [DecidableEq T] (values : Mset T)
    (v1 v2 : VariableWithCount) (vs : List VariableWithCount) :
    commutative_sequence_variable_partition_iter values (v1 :: v2 :: vs) =
      (generator_chain
        ((v1 :: v2 :: vs).foldl (fun d v => alSet d v.name []) [])
        (values.map
          (fun p => make_variable_generator_factory p.1 p.2
            (v1 :: v2 :: vs)))).filterMap
        (fun subst =>
          if (v1 :: v2 :: vs).all
              (fun v => v.minimum ≤ msetLen ((alGet subst v.name).getD []))
          then some
            (if alContains subst none then alRemove subst none else subst)
          else none) := rfl

theorem none_notmem_names (vars : List VariableWithCount)
    (hnames : ∀ v ∈ vars, v.name ≠ none) :
    (none : Option String) ∉ vars.map (fun v => v.name) := by
  intro hcon
  obtain ⟨v, hv, hvn⟩ := List.mem_map.mp hcon
  exact hnames v hv hvn

/-- **C1 (amended).** For every input multiset and every non-empty list of
`VariableWithCount` in which every variable has a name and the names are
**pairwise distinct**, every fragment yielded by
`commutative_sequence_variable_partition_iter` assigns each variable a
sub-multiset such that the sum over all variables of `count` times the
assigned sub-multiset equals the input multiset exactly, and every
variable's assigned sub-multiset has size at least that variable's
minimum; and in the single-variable case with `count > 1`, if some
element's multiplicity in the input is not divisible by `count`, nothing
is yielded.  (With a duplicated name the reconstruction sum fails: see the
counterexample.) -/
theorem claim_C1_partition_sound {T : Type _} [DecidableEq T]
    (values : Mset T) (vars : List VariableWithCount)
    (hwf : msetWF values) (hne : vars ≠ [])
    (hnames : ∀ v ∈ vars, v.name ≠ none)
    (hdistinct : (vars.map (fun v => v.name)).Nodup)
    (hcounts : ∀ v ∈ vars, 0 < v.count) :
    (∀ s ∈ commutative_sequence_variable_partition_iter values vars,
      (∀ t, sumOverVars s vars t = msetGet values t) ∧
      ∀ v ∈ vars, v.minimum ≤ msetLen ((alGet s v.name).getD [])) ∧
    (∀ v, vars = [v] → 1 < v.count → (∃ p ∈ values, ¬ v.count ∣ p.2) →
      commutative_sequence_variable_partition_iter values vars = []) := by
  constructor
  · intro s hs
    match vars, hne with
    | [v], _ =>
      have hvcount : 0 < v.count := hcounts v (by simp)
      have hvname : v.name.isSome := by
        cases hv : v.name with
        | none => exact absurd hv (hnames v (by simp))
        | some nm => rfl
      rw [show commutative_sequence_variable_partition_iter values [v] =
        commutative_single_variable_partiton_iter values v from rfl] at hs
      unfold commutative_single_variable_partiton_iter at hs
      by_cases hc1 : v.count = 1
      · rw [if_pos hc1] at hs
        by_cases hmin : v.minimum ≤ msetLen values
        · rw [if_pos hmin, if_pos hvname] at hs
          simp only [List.mem_singleton] at hs
          subst hs
          constructor
          · intro t
            simp only [sumOverVars, List.map_cons, List.map_nil,
              List.sum_cons, List.sum_nil, add_zero, msGetName, alGet,
              if_pos rfl, Option.getD_some, hc1, one_mul]
            simp
          · intro v' hv'
            simp only [List.mem_singleton] at hv'
            subst hv'
            simp only [alGet, if_pos rfl, Option.getD_some]
            exact hmin
        · rw [if_neg hmin] at hs
          simp at hs
      · rw [if_neg hc1] at hs
        cases hsg : singleGo v.count values [] with
        | none =>
            rw [hsg] at hs
            simp at hs
        | some nv =>
            rw [hsg] at hs
            simp only [] at hs
            by_cases hmin : v.minimum ≤ msetLen nv
            · rw [if_pos hmin, if_pos hvname] at hs
              simp only [List.mem_singleton] at hs
              subst hs
              constructor
              · intro t
                simp only [sumOverVars, List.map_cons, List.map_nil,
                  List.sum_cons, List.sum_nil, add_zero, msGetName, alGet,
                  if_pos rfl, Option.getD_some]
                simp only [if_true, Option.getD_some]
                rw [singleGo_get v.count values hwf.1 [] nv hsg t]
                cases halg : alGet values t with
                | none =>
                    simp only [Option.elim]
                    simp [msetGet, alGet, halg]
                | some m =>
                    simp only [Option.elim]
                    have hdvd : v.count ∣ m := by
                      have hmod := singleGo_divisible v.count values [] nv hsg
                        (t, m) (alGet_mem values t m halg)
                      rw [Int.fmod_eq_emod _ (by omega)] at hmod
                      exact Int.dvd_of_emod_eq_zero hmod
                    rw [Int.fdiv_eq_ediv _ (by omega),
                      Int.mul_ediv_cancel' hdvd]
                    simp [msetGet, halg]
              · intro v' hv'
                simp only [List.mem_singleton] at hv'
                subst hv'
                simp only [alGet, if_pos rfl, Option.getD_some]
                exact hmin
            · rw [if_neg hmin] at hs
              simp at hs
    | v1 :: v2 :: vs, _ =>
      rw [partition_iter_multi] at hs
      rw [List.mem_filterMap] at hs
      obtain ⟨s₀, hs₀chain, hf⟩ := hs
      rw [generator_chain_eq_nestedLoops] at hs₀chain
      split at hf
      case isFalse => cases hf
      case isTrue hcond =>
        have hnone : alGet s₀ none = none := by
          rw [chain_untouched (v1 :: v2 :: vs) values _ s₀ hs₀chain none
            (none_notmem_names _ hnames)]
          rw [alGet_initial_notmem (v1 :: v2 :: vs) [] none
            (none_notmem_names _ hnames)]
          rfl
        have hcontains : alContains s₀ none = false := by
          simp [alContains, hnone]
        rw [hcontains] at hf
        simp only [Bool.false_eq_true, if_false, Option.some.injEq] at hf
        subst hf
        constructor
        · intro t
          have := chain_sum_invariant (v1 :: v2 :: vs) (by simp) hdistinct
            hcounts values hwf.1 hwf.2 _ s₀ hs₀chain t
          rw [this]
          rw [show sumOverVars ((v1 :: v2 :: vs).foldl
            (fun d v => alSet d v.name []) []) (v1 :: v2 :: vs) t = 0
            from sumOverVars_initial _ _ t]
          rfl
        · intro v' hv'
          simp only [List.all_eq_true, decide_eq_true_eq] at hcond
          exact hcond v' hv'
  · rintro v rfl hcount ⟨p, hp, hdvd⟩
    rw [show commutative_sequence_variable_partition_iter values [v] =
      commutative_single_variable_partiton_iter values v from rfl]
    unfold commutative_single_variable_partiton_iter
    rw [if_neg (by omega)]
    rw [singleGo_none v.count values [] ⟨p, hp, ?_⟩]
    rw [Int.fmod_eq_emod _ (by omega)]
    intro hcon
    exact hdvd (Int.dvd_of_emod_eq_zero hcon)

/-- Counterexample to C1 as stated: with two variables sharing the name
`x` (both `count = 1`, `minimum = 0`) and input multiset `{0: 1}`, the
partitioner yields the fragment `{x: {0: 1}}`, whose reconstruction sum
over the two variables is `2`, not `1`: duplicated names make the dict
writes collide, so the claim requires pairwise distinct names. -/
theorem claim_C1_counterexample :
    ¬ ∀ s ∈ commutative_sequence_variable_partition_iter
        ([(0, 1)] : Mset Nat)
        [⟨some ("x"), 1, 0⟩, ⟨some ("x"), 1, 0⟩],
      ∀ t, sumOverVars s [⟨some ("x"), 1, 0⟩, ⟨some ("x"), 1, 0⟩] t =
        msetGet ([(0, 1)] : Mset Nat) t := by
  intro h
  exact absurd (h [(some ("x"), [(0, 1)])] (by decide) 0) (by decide)

/-- Witness for C1 at the docstring example: subject `{a: 3, b: 2, c: 1}`
(elements encoded as `0, 1, 2`) and variables `x(count 1, min 1)`,
`y(count 2, min 0)`. -/
theorem claim_C1_witness :
    ([(some ("x"), [(0, 3), (1, 2), (2, 1)]),
      (some ("y"), [(0, 0), (1, 0), (2, 0)])] : Subst Nat) ∈
      commutative_sequence_variable_partition_iter
        ([(0, 3), (1, 2), (2, 1)] : Mset Nat)
        [⟨some ("x"), 1, 1⟩, ⟨some ("y"), 2, 0⟩] ∧
    sumOverVars ([(some ("x"), [(0, 3), (1, 2), (2, 1)]),
        (some ("y"), [(0, 0), (1, 0), (2, 0)])] : Subst Nat)
      [⟨some ("x"), 1, 1⟩, ⟨some ("y"), 2, 0⟩] 0 =
      msetGet ([(0, 3), (1, 2), (2, 1)] : Mset Nat) 0 ∧
    (1 : Int) ≤ msetLen ((alGet ([(some ("x"), [(0, 3), (1, 2), (2, 1)]),
        (some ("y"), [(0, 0), (1, 0), (2, 0)])] : Subst Nat)
      (some ("x"))).getD []) := by
  have h := (claim_C1_partition_sound ([(0, 3), (1, 2), (2, 1)] : Mset Nat)
    [⟨some ("x"), 1, 1⟩, ⟨some ("y"), 2, 0⟩]
    (by constructor <;> decide) (by decide) (by decide) (by decide)
    (by decide)).1
    ([(some ("x"), [(0, 3), (1, 2), (2, 1)]),
      (some ("y"), [(0, 0), (1, 0), (2, 0)])] : Subst Nat) (by decide)
  exact ⟨by decide, h.1 0, h.2 ⟨some ("x"), 1, 1⟩ (by decide)⟩

/-! ### Further dict lemmas for the exhaustiveness claim -/

theorem alSet_keys_present {κ β : Type _} [DecidableEq κ] :
    ∀ (d : List (κ × β)) (k : κ) (v : β), (alGet d k).isSome →
      (alSet d k v).map (fun p => p.1) = d.map (fun p => p.1) := by
  intro d
  induction d with
  | nil => intro k v h; simp [alGet] at h
  | cons q rest ih =>
      rcases q with ⟨k0, v0⟩
      intro k v h
      simp only [alGet] at h
      by_cases h0 : k0 = k
      · simp [alSet, h0]
      · rw [if_neg h0] at h
        simp only [alSet, if_neg h0, List.map_cons]
        rw [ih k v h]

theorem alRemove_get_self {κ β : Type _} [DecidableEq κ] :
    ∀ (d : List (κ × β)) (k : κ), (d.map (fun p => p.1)).Nodup →
      alGet (alRemove d k) k = none := by
  intro d
  induction d with
  | nil => intro k _; simp [alRemove, alGet]
  | cons q rest ih =>
      rcases q with ⟨k0, v0⟩
      intro k hnd
      simp only [List.map_cons, List.nodup_cons] at hnd
      simp only [alRemove]
      by_cases h0 : k0 = k
      · rw [if_pos h0]
        subst h0
        exact (alGet_eq_none_iff rest k0).mpr hnd.1
      · rw [if_neg h0]
        simp only [alGet, if_neg h0]
        exact ih k hnd.2

theorem alRemove_get_ne {κ β : Type _} [DecidableEq κ] :
    ∀ (d : List (κ × β)) (k k' : κ), k' ≠ k →
      alGet (alRemove d k) k' = alGet d k' := by
  intro d
  induction d with
  | nil => intro k k' _; rfl
  | cons q rest ih =>
      rcases q with ⟨k0, v0⟩
      intro k k' h
      simp only [alRemove, alGet]
      by_cases h0 : k0 = k
      · rw [if_pos h0]
        subst h0
        rw [if_neg (fun hc => h (hc.symm))]
      · rw [if_neg h0]
        simp only [alGet]
        by_cases h1 : k0 = k'
        · rw [if_pos h1, if_pos h1]
        · rw [if_neg h1, if_neg h1]
          exact ih k k' h

theorem msetLen_msetSet_fresh {T : Type _} [DecidableEq T] :
    ∀ (m : Mset T) (t : T) (c : Int), alGet m t = none →
      msetLen (msetSet m t c) = msetLen m + c := by
  intro m
  induction m with
  | nil => intro t c _; simp [msetSet, alSet, msetLen]
  | cons q rest ih =>
      rcases q with ⟨t0, c0⟩
      intro t c h
      simp only [alGet] at h
      by_cases h0 : t0 = t
      · rw [if_pos h0] at h
        cases h
      · rw [if_neg h0] at h
        simp only [msetSet, alSet, if_neg h0, msetLen, List.map_cons,
          List.sum_cons]
        have := ih t c h
        simp only [msetSet, msetLen] at this
        rw [this]
        ring

theorem zip_cover {γ δ : Type _} :
    ∀ (l1 : List γ) (l2 : List δ), l1.length ≤ l2.length →
      ∀ a ∈ l1, ∃ b, (a, b) ∈ l1.zip l2 := by
  intro l1
  induction l1 with
  | nil => intro l2 _ a ha; simp at ha
  | cons x xs ih =>
      intro l2 hlen a ha
      cases l2 with
      | nil => simp at hlen
      | cons y ys =>
          rcases List.mem_cons.mp ha with rfl | ha
          · exact ⟨y, by simp⟩
          · obtain ⟨b, hb⟩ := ih ys (by simp at hlen; omega) a ha
            exact ⟨b, by simp [hb]⟩

theorem writeAll_mset {T : Type _} [DecidableEq T] (t0 : T) :
    ∀ (vs : List VariableWithCount) (sol : List Int) (s : Subst T),
      (vs.map (fun v => v.name)).Nodup →
      ∀ vc ∈ vs.zip sol,
        (alGet ((vs.zip sol).foldl
          (fun s vc => writeVar s vc.1.name t0 vc.2) s) vc.1.name).getD [] =
          msetSet ((alGet s vc.1.name).getD []) t0 vc.2 := by
  intro vs
  induction vs with
  | nil => intro sol s _ vc hvc; simp at hvc
  | cons v vs ih =>
      intro sol s hnodup vc hvc
      cases sol with
      | nil => simp at hvc
      | cons c cs =>
          simp only [List.map_cons, List.nodup_cons] at hnodup
          simp only [List.zip_cons_cons, List.foldl_cons]
          rcases List.mem_cons.mp hvc with rfl | hvc
          · simp only
            rw [writeAll_untouched t0 vs cs _ v.name hnodup.1]
            simp [writeVar, alGet_alSet_self]
          · have hne : vc.1.name ≠ v.name := by
              intro hc
              have := (List.of_mem_zip hvc).1
              exact hnodup.1 (hc ▸ List.mem_map.mpr ⟨vc.1, this, rfl⟩)
            rw [ih cs (writeVar s v.name t0 c) hnodup.2 vc hvc]
            rw [alGet_writeVar_ne s v.name vc.1.name t0 c hne]

theorem chain_construct {T : Type _} [DecidableEq T]
    (vars : List VariableWithCount) (asgn : List (T → Int))
    (hne : vars ≠ []) (hnodup : (vars.map (fun v => v.name)).Nodup)
    (hcounts : ∀ v ∈ vars, 0 < v.count) (halen : asgn.length = vars.length)
    (hannn : ∀ f ∈ asgn, ∀ t, 0 ≤ f t) :
    ∀ (items : List (T × Int)), (items.map (fun p => p.1)).Nodup →
      (∀ p ∈ items, 0 < p.2) →
      (∀ p ∈ items, dotProd (vars.map (fun v => v.count))
        (asgn.map (fun f => f p.1)) = p.2) →
      ∀ s₀ : Subst T,
      (∀ vc ∈ vars.zip asgn, ∀ p ∈ items,
        alGet ((alGet s₀ vc.1.name).getD []) p.1 = none) →
      ∃ s ∈ nestedLoops
        (items.map (fun p => make_variable_generator_factory p.1 p.2 vars))
        s₀,
        ∀ vc ∈ vars.zip asgn,
          (∀ t, (alGet items t).isSome →
            msetGet ((alGet s vc.1.name).getD []) t = vc.2 t) ∧
          (∀ t, alGet items t = none →
            alGet ((alGet s vc.1.name).getD []) t =
              alGet ((alGet s₀ vc.1.name).getD []) t) ∧
          msetLen ((alGet s vc.1.name).getD []) =
            msetLen ((alGet s₀ vc.1.name).getD []) +
              (items.map (fun p => vc.2 p.1)).sum := by
  intro items
  induction items with
  | nil =>
      intro _ _ _ s₀ _
      refine ⟨s₀, by simp [nestedLoops], ?_⟩
      intro vc _
      refine ⟨?_, ?_, ?_⟩
      · intro t ht
        simp [alGet] at ht
      · intro t _
        rfl
      · simp
  | cons q rest ih =>
      rcases q with ⟨t0, m0⟩
      intro hkeys hpos hdots s₀ hfresh
      simp only [List.map_cons, List.nodup_cons] at hkeys
      obtain ⟨sols, hok, hfac, hsolprops⟩ := factory_char t0 m0 vars hne
        hcounts (le_of_lt (hpos (t0, m0) (by simp)))
      have hsolmem : asgn.map (fun f => f t0) ∈ sols := by
        obtain ⟨solsAll, hok2, hnd2, hmem2⟩ := solveGo_ok
          (vars.map (fun v => v.count)).length m0
          (vars.map (fun v => v.count)) (by simpa using hne) (by omega)
          (by
            intro c hc
            obtain ⟨v, hv, rfl⟩ := List.mem_map.mp hc
            exact hcounts v hv)
          (le_of_lt (hpos (t0, m0) (by simp)))
        have hok2' : solve_linear_diop m0 (vars.map (fun v => v.count)) =
            .ok solsAll := hok2
        have heq : sols = solsAll := by
          rw [hok] at hok2'
          cases hok2'
          rfl
        subst heq
        apply (hmem2 _).mpr
        refine ⟨by simp [halen], ?_, ?_⟩
        · intro x hx
          obtain ⟨f, hf, rfl⟩ := List.mem_map.mp hx
          exact hannn f hf t0
        · exact hdots (t0, m0) (by simp)
      set sol : List Int := asgn.map (fun f => f t0) with hsol_def
      set s1 : Subst T := (vars.zip sol).foldl
        (fun s vc => writeVar s vc.1.name t0 vc.2) s₀ with hs1_def
      have hmset1 : ∀ vc ∈ vars.zip asgn,
          (alGet s1 vc.1.name).getD [] =
            msetSet ((alGet s₀ vc.1.name).getD []) t0 (vc.2 t0) := by
        intro vc hvc
        have hvc' : (vc.1, vc.2 t0) ∈ vars.zip sol := by
          rw [hsol_def, List.zip_map_right]
          exact List.mem_map.mpr ⟨vc, hvc, rfl⟩
        have := writeAll_mset t0 vars sol s₀ hnodup (vc.1, vc.2 t0) hvc'
        simp only at this
        rw [hs1_def]
        exact this
      have hfresh1 : ∀ vc ∈ vars.zip asgn, ∀ p ∈ rest,
          alGet ((alGet s1 vc.1.name).getD []) p.1 = none := by
        intro vc hvc p hp
        rw [hmset1 vc hvc]
        have hne0 : p.1 ≠ t0 := by
          intro hc
          exact hkeys.1 (hc ▸ List.mem_map.mpr ⟨p, hp, rfl⟩)
        rw [msetSet, alGet_alSet_ne _ _ _ _ hne0]
        exact hfresh vc hvc p (by simp [hp])
      obtain ⟨s, hsmem, hsprops⟩ := ih hkeys.2
        (fun p hp => hpos p (by simp [hp]))
        (fun p hp => hdots p (by simp [hp])) s1 hfresh1
      refine ⟨s, ?_, ?_⟩
      · simp only [List.map_cons, nestedLoops, List.mem_flatMap]
        refine ⟨s1, ?_, hsmem⟩
        rw [hfac]
        exact List.mem_map.mpr ⟨sol, hsolmem, rfl⟩
      · intro vc hvc
        obtain ⟨hA, hB, hC⟩ := hsprops vc hvc
        refine ⟨?_, ?_, ?_⟩
        · intro t ht
          by_cases ht0 : t = t0
          · subst ht0
            have hrest : alGet rest t = none :=
              (alGet_eq_none_iff rest t).mpr hkeys.1
            simp only [msetGet]
            rw [hB t hrest, hmset1 vc hvc, msetSet, alGet_alSet_self]
            rfl
          · simp only [alGet,
              if_neg (show ¬ t0 = t from fun hc => ht0 hc.symm)] at ht
            exact hA t ht
        · intro t ht
          simp only [alGet] at ht
          by_cases ht0 : t0 = t
          · rw [if_pos ht0] at ht
            cases ht
          · rw [if_neg ht0] at ht
            rw [hB t ht, hmset1 vc hvc, msetSet,
              alGet_alSet_ne _ _ _ _ (fun hc => ht0 hc.symm)]
        · rw [hC, hmset1 vc hvc]
          rw [msetLen_msetSet_fresh _ _ _
            (hfresh vc hvc (t0, m0) (by simp))]
          simp only [List.map_cons, List.sum_cons]
          ring

theorem alGet_of_mem_nodup {κ β : Type _} [DecidableEq κ] :
    ∀ (d : List (κ × β)), (d.map (fun p => p.1)).Nodup →
      ∀ (k : κ) (v : β), (k, v) ∈ d → alGet d k = some v := by
  intro d
  induction d with
  | nil => intro _ k v h; simp at h
  | cons q rest ih =>
      rcases q with ⟨k0, v0⟩
      intro hnd k v h
      simp only [List.map_cons, List.nodup_cons] at hnd
      rcases List.mem_cons.mp h with heq | h
      · cases heq
        simp [alGet]
      · have hne : k0 ≠ k := by
          intro hc
          subst hc
          exact hnd.1 (List.mem_map.mpr ⟨(k0, v), h, rfl⟩)
        simp only [alGet, if_neg hne]
        exact ih hnd.2 k v h

theorem alGet_alSet_isSome_mono {κ β : Type _} [DecidableEq κ]
    (d : List (κ × β)) (k k' : κ) (v : β)
    (h : (alGet d k').isSome) : (alGet (alSet d k v) k').isSome := by
  by_cases hk : k' = k
  · subst hk
    rw [alGet_alSet_self]
    rfl
  · rw [alGet_alSet_ne d k k' v hk]
    exact h

theorem initial_isSome {T : Type _} [DecidableEq T] :
    ∀ (vars : List VariableWithCount) (d : Subst T) (nm : Option String),
      nm ∈ vars.map (fun v => v.name) ∨ (alGet d nm).isSome →
      (alGet (vars.foldl (fun d v => alSet d v.name []) d) nm).isSome := by
  intro vars
  induction vars with
  | nil =>
      intro d nm h
      rcases h with h | h
      · simp at h
      · exact h
  | cons v vs ih =>
      intro d nm h
      simp only [List.foldl_cons]
      rcases h with h | h
      · simp only [List.map_cons, List.mem_cons] at h
        rcases h with heq | h
        · exact ih (alSet d v.name []) nm
            (Or.inr (by rw [heq, alGet_alSet_self]; rfl))
        · exact ih _ nm (Or.inl h)
      · exact ih _ nm (Or.inr (alGet_alSet_isSome_mono d v.name nm [] h))

theorem writeAll_keys {T : Type _} [DecidableEq T] (t0 : T) :
    ∀ (vs : List VariableWithCount) (sol : List Int) (s : Subst T),
      (∀ v ∈ vs, (alGet s v.name).isSome) →
      ((vs.zip sol).foldl (fun s vc => writeVar s vc.1.name t0 vc.2) s).map
          (fun p => p.1) = s.map (fun p => p.1) := by
  intro vs
  induction vs with
  | nil => intro sol s _; simp
  | cons v vs ih =>
      intro sol s hpres
      cases sol with
      | nil => simp
      | cons c cs =>
          simp only [List.zip_cons_cons, List.foldl_cons]
          rw [ih cs (writeVar s v.name t0 c) (fun v' hv' =>
            alGet_alSet_isSome_mono s v.name v'.name _
              (hpres v' (by simp [hv'])))]
          exact alSet_keys_present s v.name _ (hpres v (by simp))

theorem chain_keys {T : Type _} [DecidableEq T]
    (vars : List VariableWithCount) :
    ∀ (items : List (T × Int)) (s₀ s : Subst T),
      s ∈ nestedLoops
        (items.map (fun p => make_variable_generator_factory p.1 p.2 vars))
        s₀ →
      (∀ v ∈ vars, (alGet s₀ v.name).isSome) →
      s.map (fun p => p.1) = s₀.map (fun p => p.1) := by
  intro items
  induction items with
  | nil =>
      intro s₀ s hs _
      simp only [List.map_nil, nestedLoops, List.mem_singleton] at hs
      subst hs
      rfl
  | cons p rest ih =>
      intro s₀ s hs hpres
      simp only [List.map_cons, nestedLoops, List.mem_flatMap] at hs
      obtain ⟨s1, hs1, hsrest⟩ := hs
      obtain ⟨sol, rfl⟩ := factory_mem_shape p.1 p.2 vars s₀ s1 hs1
      have hkeys1 := writeAll_keys p.1 vars sol s₀ hpres
      have hpres1 : ∀ v ∈ vars, (alGet ((vars.zip sol).foldl
          (fun s vc => writeVar s vc.1.name p.1 vc.2) s₀) v.name).isSome := by
        intro v hv
        rw [← Option.ne_none_iff_isSome, Ne, alGet_eq_none_iff, hkeys1]
        rw [← alGet_eq_none_iff, ← Ne, Option.ne_none_iff_isSome]
        exact hpres v hv
      rw [ih _ s hsrest hpres1]
      exact hkeys1

theorem sum_nonneg_eq_zero :
    ∀ (l : List Int), (∀ x ∈ l, 0 ≤ x) → l.sum = 0 → ∀ x ∈ l, x = 0 := by
  intro l
  induction l with
  | nil => intro _ _ x hx; simp at hx
  | cons a l ih =>
      intro hnn hsum x hx
      have hl : 0 ≤ l.sum := List.sum_nonneg (fun y hy => hnn y (by simp [hy]))
      have ha : 0 ≤ a := hnn a (by simp)
      simp only [List.sum_cons] at hsum
      rcases List.mem_cons.mp hx with rfl | hx
      · omega
      · exact ih (fun y hy => hnn y (by simp [hy])) (by omega) x hx

theorem dotProd_map_zip {γ : Type _} (c : VariableWithCount → Int)
    (g : γ → Int) :
    ∀ (vs : List VariableWithCount) (l : List γ),
      dotProd (vs.map c) (l.map g) =
        ((vs.zip l).map (fun va => c va.1 * g va.2)).sum := by
  intro vs
  induction vs with
  | nil => intro l; simp [dotProd]
  | cons v vs ih =>
      intro l
      cases l with
      | nil => simp [dotProd_nil_right]
      | cons x xs =>
          simp only [List.map_cons, List.zip_cons_cons, dotProd_cons,
            List.sum_cons]
          rw [ih xs]

theorem alSet_keys_fresh {κ β : Type _} [DecidableEq κ] :
    ∀ (d : List (κ × β)) (k : κ) (v : β), alGet d k = none →
      (alSet d k v).map (fun p => p.1) = d.map (fun p => p.1) ++ [k] := by
  intro d
  induction d with
  | nil => intro k v _; simp [alSet]
  | cons q rest ih =>
      rcases q with ⟨k0, v0⟩
      intro k v h
      simp only [alGet] at h
      by_cases h0 : k0 = k
      · rw [if_pos h0] at h
        cases h
      · rw [if_neg h0] at h
        simp only [alSet, if_neg h0, List.map_cons, List.cons_append]
        rw [ih k v h]

theorem initial_keys {T : Type _} [DecidableEq T] :
    ∀ (vars : List VariableWithCount) (d : Subst T),
      (vars.map (fun v => v.name)).Nodup →
      (∀ v ∈ vars, v.name ∉ d.map (fun p => p.1)) →
      (vars.foldl (fun d v => alSet d v.name []) d).map (fun p => p.1) =
        d.map (fun p => p.1) ++ vars.map (fun v => v.name) := by
  intro vars
  induction vars with
  | nil => intro d _ _; simp
  | cons v vs ih =>
      intro d hnd hfresh
      simp only [List.map_cons, List.nodup_cons] at hnd
      simp only [List.foldl_cons]
      have hvd : alGet d v.name = none :=
        (alGet_eq_none_iff d v.name).mpr (hfresh v (by simp))
      have hstep := alSet_keys_fresh d v.name ([] : Mset T) hvd
      rw [ih (alSet d v.name []) hnd.2 ?_, hstep]
      · simp
      · intro v' hv'
        rw [hstep]
        simp only [List.mem_append, List.mem_singleton, not_or]
        exact ⟨hfresh v' (by simp [hv']),
          fun hc => hnd.1 (hc ▸ List.mem_map.mpr ⟨v', hv', rfl⟩)⟩

theorem initial_mset_empty {T : Type _} [DecidableEq T]
    (vars : List VariableWithCount) (nm : Option String) :
    (alGet (vars.foldl (fun d v => alSet d v.name []) []) nm).getD [] =
      ([] : Mset T) := by
  cases halg : alGet (vars.foldl (fun d v => alSet d v.name []) []) nm with
  | none => rfl
  | some mv =>
      have hmv := initial_values vars [] (by simp) (nm, mv)
        (alGet_mem _ _ _ halg)
    
      simp only at hmv
      rw [hmv]
      rfl

/-- Exhaustiveness of the functional reading: for every well-formed
values multiset and every list of two or more variables with
pairwise-distinct names and positive counts of which one is anonymous,
`commutative_sequence_variable_partition_iter` (the per-fragment
functional model) contains every valid joint partition: for every family
of non-negative parts (one per variable) whose count-weighted sum
reconstructs the values exactly and whose totals meet every variable's
minimum, some fragment binds each named variable to exactly its part,
with the anonymous binding absent.  The source program does **not**
realise this enumeration: its destructive `del subst[None]` kills the
suspended generators, see `claim_C4_partition_keyerror`. -/
theorem partition_iter_pure_exhaustive {T : Type _} [DecidableEq T]
    (values : Mset T) (vars : List VariableWithCount) (asgn : List (T → Int))
    (hwf : msetWF values) (hlen2 : 2 ≤ vars.length)
    (hanon : (none : Option String) ∈ vars.map (fun v => v.name))
    (hdistinct : (vars.map (fun v => v.name)).Nodup)
    (hcounts : ∀ v ∈ vars, 0 < v.count)
    (halen : asgn.length = vars.length)
    (hannn : ∀ f ∈ asgn, ∀ t, 0 ≤ f t)
    (hasum : ∀ t,
      ((vars.zip asgn).map (fun va => va.1.count * va.2 t)).sum =
        msetGet values t)
    (hamin : ∀ va ∈ vars.zip asgn,
      va.1.minimum ≤ (values.map (fun p => va.2 p.1)).sum) :
    ∃ s ∈ commutative_sequence_variable_partition_iter values vars,
      (∀ va ∈ vars.zip asgn, ∀ nm, va.1.name = some nm →
        ∀ t, msGetName s (some nm) t = va.2 t) ∧
      alGet s (none : Option String) = none := by
  obtain ⟨v1, v2, vs, rfl⟩ : ∃ v1 v2 vs, vars = v1 :: v2 :: vs := by
    cases vars with
    | nil => simp at hlen2
    | cons v1 rest =>
        cases rest with
        | nil => simp at hlen2
        | cons v2 vs => exact ⟨v1, v2, vs, rfl⟩
  have hne : (v1 :: v2 :: vs) ≠ ([] : List VariableWithCount) := by simp
  have hdots : ∀ p ∈ values,
      dotProd ((v1 :: v2 :: vs).map (fun v => v.count))
        (asgn.map (fun f => f p.1)) = p.2 := by
    intro p hp
    rw [dotProd_map_zip (fun v => v.count) (fun f : T → Int => f p.1)
      (v1 :: v2 :: vs) asgn]
    rw [hasum p.1]
    rcases p with ⟨t, c⟩
    simp only [msetGet]
    rw [alGet_of_mem_nodup values hwf.1 t c hp]
    rfl
  have hfresh : ∀ vc ∈ (v1 :: v2 :: vs).zip asgn, ∀ p ∈ values,
      alGet ((alGet ((v1 :: v2 :: vs).foldl (fun d v => alSet d v.name [])
        ([] : Subst T)) vc.1.name).getD []) p.1 = none := by
    intro vc _ p _
    rw [initial_mset_empty (v1 :: v2 :: vs) vc.1.name]
    rfl
  obtain ⟨s, hsmem, hprops⟩ := chain_construct (v1 :: v2 :: vs) asgn hne
    hdistinct hcounts halen hannn values hwf.1 hwf.2 hdots
    ((v1 :: v2 :: vs).foldl (fun d v => alSet d v.name []) []) hfresh
  have hpres0 : ∀ v ∈ (v1 :: v2 :: vs),
      (alGet ((v1 :: v2 :: vs).foldl (fun d v => alSet d v.name [])
        ([] : Subst T)) v.name).isSome := by
    intro v hv
    exact initial_isSome (v1 :: v2 :: vs) [] v.name
      (Or.inl (List.mem_map.mpr ⟨v, hv, rfl⟩))
  have hskeys : s.map (fun p => p.1) =
      (v1 :: v2 :: vs).map (fun v => v.name) := by
    rw [chain_keys (v1 :: v2 :: vs) values _ s hsmem hpres0]
    have := initial_keys (v1 :: v2 :: vs) ([] : Subst T) hdistinct (by simp)
    simpa using this
  have hsnodup : (s.map (fun p => p.1)).Nodup := by
    rw [hskeys]
    exact hdistinct
  have hpresS : ∀ nm, nm ∈ (v1 :: v2 :: vs).map (fun v => v.name) →
      (alGet s nm).isSome := by
    intro nm hnm
    rw [← Option.ne_none_iff_isSome, Ne, alGet_eq_none_iff, hskeys]
    exact fun hc => hc hnm
  have hall : ((v1 :: v2 :: vs).all
      (fun v => v.minimum ≤ msetLen ((alGet s v.name).getD []))) = true := by
    simp only [List.all_eq_true, decide_eq_true_eq]
    intro v hv
    obtain ⟨f, hvf⟩ :=
      zip_cover (v1 :: v2 :: vs) asgn (le_of_eq halen.symm) v hv
    have hlen : msetLen ((alGet s v.name).getD []) =
        msetLen ((alGet ((v1 :: v2 :: vs).foldl
          (fun d v => alSet d v.name []) []) v.name).getD []) +
          (values.map (fun p => f p.1)).sum := (hprops (v, f) hvf).2.2
    rw [initial_mset_empty (v1 :: v2 :: vs) v.name] at hlen
    have hmin : v.minimum ≤ (values.map (fun p => f p.1)).sum :=
      hamin (v, f) hvf
    have hnil : msetLen ([] : Mset T) = 0 := rfl
    rw [hnil] at hlen
    omega
  have hcont : alContains s (none : Option String) = true :=
    hpresS none hanon
  refine ⟨alRemove s none, ?_, ?_, ?_⟩
  · rw [partition_iter_multi]
    refine List.mem_filterMap.mpr ⟨s, ?_, ?_⟩
    · rw [generator_chain_eq_nestedLoops]
      exact hsmem
    · rw [if_pos hall, if_pos hcont]
  · intro va hva nm hnm t
    show msetGet ((alGet (alRemove s none) (some nm)).getD []) t = va.2 t
    rw [alRemove_get_ne s none (some nm) (Option.some_ne_none nm), ← hnm]
    by_cases ht : (alGet values t).isSome
    · exact (hprops va hva).1 t ht
    · have htn : alGet values t = none := Option.not_isSome_iff_eq_none.mp ht
      have hzero := (hprops va hva).2.1 t htn
      rw [initial_mset_empty (v1 :: v2 :: vs) va.1.name] at hzero
      simp only [alGet] at hzero
      have hs0 : (((v1 :: v2 :: vs).zip asgn).map
          (fun va => va.1.count * va.2 t)).sum = 0 := by
        rw [hasum t]
        simp only [msetGet]
        rw [htn]
        rfl
      have hterm : va.1.count * va.2 t = 0 := by
        refine sum_nonneg_eq_zero _ ?_ hs0 _
          (List.mem_map.mpr ⟨va, hva, rfl⟩)
        intro x hx
        obtain ⟨⟨wv, wf⟩, hw, rfl⟩ := List.mem_map.mp hx
        have hw12 := List.of_mem_zip hw
        exact mul_nonneg (le_of_lt (hcounts wv hw12.1)) (hannn wf hw12.2 t)
      have hcpos : 0 < va.1.count := hcounts va.1 (List.of_mem_zip hva).1
      have hva0 : va.2 t = 0 := by
        rcases mul_eq_zero.mp hterm with h | h
        · omega
        · exact h
      simp only [msetGet]
      rw [hzero, hva0]
      rfl
  · exact alRemove_get_self s none hsnodup
/-! ### The shared-dict run of the partitioner

The source's `commutative_sequence_variable_partition_iter` and the
factory generators of `_make_variable_generator_factory` all operate on
one dict object: each factory pull performs
`subst[var.name][value] = count` in place on it (`utils.py:109`), and the
consuming loop performs `del subst[None]` in place on it before yielding
a valid fragment (`utils.py:187`).  `generator_chain` catches only
`StopIteration`, so a `KeyError` from a write after that `del` ends the
whole iteration.  The machine below runs exactly this. -/

/-- `subst[var.name][value] = count` from the factory body
(`utils.py:109`): the dict lookup `subst[var.name]` raises `KeyError`
when the name is not a key (which is how the pull following
`del subst[None]` dies); otherwise the named multiset is updated. -/
def writeVarE {T : Type _} [DecidableEq T] (s : Subst T) (nm : Option String)
    (t : T) (c : Int) : Except PyErr (Subst T) :=
  match alGet s nm with
  | none => Except.error PyErr.keyError
  | some m => Except.ok (alSet s nm (msetSet m t c))

/-- The write loop of one factory pull:
`for var, count in zip(variables, solution):
subst[var.name][value] = count`, with a raised `KeyError` aborting the
loop. -/
def writeSolE {T : Type _} [DecidableEq T] (t : T) :
    List (VariableWithCount × Int) → Subst T → Except PyErr (Subst T)
  | [], s => Except.ok s
  | vc :: rest, s =>
      match writeVarE s vc.1.name t vc.2 with
      | Except.error e => Except.error e
      | Except.ok s2 => writeSolE t rest s2

/-- The solution list the generator created by
`_make_variable_generator_factory(value, total, variables)` iterates
over: `solve_linear_diop(total, *var_counts)`, which does not depend on
the dict the factory is called with.  As for
`make_variable_generator_factory`, the claims only reach this where the
solver is proved to succeed (positive counts), so the
propagated-exception case is mapped to the empty enumeration. -/
def solsFor {T : Type _} (vars : List VariableWithCount) (p : T × Int) :
    List (List Int) :=
  match solve_linear_diop p.2 (vars.map (fun v => v.count)) with
  | Except.error _ => []
  | Except.ok sols => sols

/-- The `for subst in generator_chain(initial, *generators)` loop of
`commutative_sequence_variable_partition_iter` run with the shared,
mutated dict.  The state mirrors `runChain`: the generator slots
(`none` = the slot holds `None` and is recreated by the factory on
arrival, `some rest` = a suspended generator with remaining solutions),
the `generator_index`, and the one dict `s` that every generator and the
consuming loop share (it is both the machine's `next_data` and the
mutated store).  A pull takes the slot's next solution and performs the
factory's writes on `s` (a `KeyError` ends the whole iteration, since
`generator_chain` catches only `StopIteration`); an exhausted generator
retires its slot and the index retreats; past the last slot the consumer
body runs: the minimum filter on the current dict, then
`del subst[None]` in place, then the yield, after which the chain
resumes at the previous slot with the mutated dict.  The result pairs
the yielded fragments (their value at yield time) with the exception
ending the run, if any.  The fuel only bounds the step count: running
out truncates the run to the yields seen so far with no error, so a
result carrying an error was necessarily produced by the writes
themselves, never by the fuel; the wrapper passes
`partitionRunCost + 1`, which exceeds the exact step count of a complete
run. -/
def partitionRunGo {T : Type _} [DecidableEq T]
    (vars : List VariableWithCount) (items : List (T × Int)) :
    Nat → List (Option (List (List Int))) → Nat → Subst T →
      List (Subst T) × Option PyErr
  | 0, _, _, _ => ([], none)
  | fuel + 1, gens, idx, s =>
      if h : idx < items.length then
        match (gens.getD idx none).getD (solsFor vars (items.get ⟨idx, h⟩)) with
        | [] =>
            if idx = 0 then ([], none)
            else partitionRunGo vars items fuel (gens.set idx none) (idx - 1) s
        | sol :: rest =>
            match writeSolE (items.get ⟨idx, h⟩).1 (vars.zip sol) s with
            | Except.error e => ([], some e)
            | Except.ok s2 =>
                partitionRunGo vars items fuel (gens.set idx (some rest))
                  (idx + 1) s2
      else
        if vars.all (fun v => v.minimum ≤ msetLen ((alGet s v.name).getD []))
        then
          let s2 := if alContains s none then alRemove s none else s
          let res := partitionRunGo vars items fuel gens (idx - 1) s2
          (s2 :: res.1, res.2)
        else partitionRunGo vars items fuel gens (idx - 1) s

/-- Step count of a complete run below the slot whose remaining solution
counts are listed: a slot with `s` solutions advances `s` times, each
advance followed by a complete deeper run, and is retired once; past the
last slot each visit is one step. -/
def partitionRunCost : List Nat → Nat
  | [] => 1
  | s :: rest => s * (1 + partitionRunCost rest) + 1

/-- `commutative_sequence_variable_partition_iter(values, variables)` as
the source runs it, with the destructive `del subst[None]`
(`utils.py:187`) on the dict shared with the suspended factory
generators.  The single-variable case delegates to the (pure)
single-variable iterator and cannot raise; with no values,
`generator_chain` yields the initial dict once and the consumer body
processes it; otherwise the shared-dict machine runs, started like
`generator_chain` with all slots `None` and index `0`. -/
def commutative_sequence_variable_partition_run {T : Type _}
    [DecidableEq T] (values : Mset T) (vars : List VariableWithCount) :
    List (Subst T) × Option PyErr :=
  match vars with
  | [v] => (commutative_single_variable_partiton_iter values v, none)
  | _ =>
      let initial : Subst T := vars.foldl (fun d v => alSet d v.name []) []
      if values.length = 0 then
        if vars.all
            (fun v => v.minimum ≤ msetLen ((alGet initial v.name).getD []))
        then
          ([if alContains initial none then alRemove initial none
            else initial], none)
        else ([], none)
      else
        partitionRunGo vars values
          (partitionRunCost (values.map (fun p => (solsFor vars p).length))
            + 1)
          (List.replicate values.length none) 0 initial

/-- **C4 (code bug).** On values `{0: 1}` and variables
`x(count 1, min 0)`, `anonymous(count 1, min 0)`, the shared-dict run of
the source yields exactly one fragment, `{x: {0: 0}}` (the first valid
one, with the anonymous binding deleted), and then raises `KeyError`:
the resumed generator's write `subst[None][0] = ...` finds the key
deleted.  The functional reading of the same call contains two valid
fragments; the second, `{x: {0: 1}}` — the partition giving `x` the
whole multiset — is never yielded by the program, refuting the claim
that every valid joint partition is yielded. -/
theorem claim_C4_partition_keyerror :
    commutative_sequence_variable_partition_run
        ([((0 : Int), (1 : Int))]) [⟨some ("x"), 1, 0⟩, ⟨none, 1, 0⟩] =
      ([[(some ("x"), [((0 : Int), (0 : Int))])]], some PyErr.keyError) ∧
    commutative_sequence_variable_partition_iter
        ([((0 : Int), (1 : Int))]) [⟨some ("x"), 1, 0⟩, ⟨none, 1, 0⟩] =
      [[(some ("x"), [((0 : Int), (0 : Int))])],
       [(some ("x"), [((0 : Int), (1 : Int))])]] :=
  ⟨rfl, rfl⟩

/-! ### The expression tree: `substitute` and `replace`
(`src/patternmatcher/functions.py`) -/

/-- Modelled from the spec: the `Expression` tree of the `patternmatcher`
package (its `expressions.py` is not among the sources).  A `Symbol` is a
constant leaf, a `Variable` is a named variable, and an `Operation` has a
head (standing for its Python class) and a list of operands;
`type(e).from_args(*ops)` rebuilds an operation of the same class from a
new operand list, modelled by the `Operation` constructor with the same
head. -/
inductive Expr where
  | Symbol (name : String)
  | Variable (name : String)
  | Operation (head : String) (operands : List Expr)

/-- `l[i]` on a Python list: a negative index counts from the end, and an
index out of range raises `IndexError`. -/
def pyGet {α : Type _} (l : List α) (i : Int) : Except PyErr α :=
  let j := if i < 0 then i + l.length else i
  if 0 ≤ j ∧ j < (l.length : Int) then
    match l[j.toNat]? with
    | some a => Except.ok a
    | none => Except.error PyErr.indexError
  else Except.error PyErr.indexError

/-- `l[i] = a` on a Python list (same index rules as `pyGet`). -/
def pySet {α : Type _} (l : List α) (i : Int) (a : α) :
    Except PyErr (List α) :=
  let j := if i < 0 then i + l.length else i
  if 0 ≤ j ∧ j < (l.length : Int) then Except.ok (l.set j.toNat a)
  else Except.error PyErr.indexError

/-- `l[:p]` on a Python list (a negative bound counts from the end; the
result is clamped to the list). -/
def pySliceTo {α : Type _} (l : List α) (p : Int) : List α :=
  let j := if p < 0 then p + l.length else p
  l.take j.toNat

/-- `l[p:]` on a Python list (a negative bound counts from the end; the
result is clamped to the list). -/
def pySliceFrom {α : Type _} (l : List α) (p : Int) : List α :=
  let j := if p < 0 then p + l.length else p
  l.drop j.toNat

/-- `replace(expression, position, replacement)` from
`patternmatcher/functions.py`: an empty position returns the replacement;
a non-empty position on a non-`Operation` node raises `IndexError`, as
does a first index `>= len(operands)`; otherwise the function recurses
into `operands[position[0]]` (Python indexing, so a sufficiently negative
first index also raises `IndexError`), splices a list-valued result into
the operand list via slicing, and otherwise stores the single result back
at the index, rebuilding with `from_args`. -/
def replace : Expr → List Int → (Expr ⊕ List Expr) →
    Except PyErr (Expr ⊕ List Expr)
  | _, [], replacement => Except.ok replacement
  | .Symbol _, _ :: _, _ => Except.error PyErr.indexError
  | .Variable _, _ :: _, _ => Except.error PyErr.indexError
  | .Operation hd ops, p :: rest, replacement =>
      if p ≥ (ops.length : Int) then Except.error PyErr.indexError
      else
        match pyGet ops p with
        | Except.error e => Except.error e
        | Except.ok sub =>
            match replace sub rest replacement with
            | Except.error e => Except.error e
            | Except.ok (Sum.inr l) =>
                Except.ok (Sum.inl (.Operation hd
                  (pySliceTo ops p ++ l ++ pySliceFrom ops (p + 1))))
            | Except.ok (Sum.inl e) =>
                match pySet ops p e with
                | Except.error er => Except.error er
                | Except.ok ops2 => Except.ok (Sum.inl (.Operation hd ops2))

/-- `substitute(expression, substitution)` from
`patternmatcher/functions.py`: a `Variable` whose name is a key of the
substitution returns its replacement with `True`; an `Operation`
substitutes in every operand, extends the new operand list with
list-valued results and appends single results, and rebuilds via
`from_args` iff any operand reported a replacement; in every other case
the original expression is returned with `False`. -/
def substitute : Expr → List (String × (Expr ⊕ List Expr)) →
    (Expr ⊕ List Expr) × Bool
  | .Symbol n, _ => (Sum.inl (.Symbol n), false)
  | .Variable n, sub =>
      match alGet sub n with
      | some repl => (repl, true)
      | none => (Sum.inl (.Variable n), false)
  | .Operation hd ops, sub =>
      let results := ops.attach.map (fun op => substitute op.1 sub)
      let new_operands := results.flatMap (fun r =>
        match r.1 with
        | Sum.inl e => [e]
        | Sum.inr l => l)
      if results.any (fun r => r.2) then
        (Sum.inl (.Operation hd new_operands), true)
      else (Sum.inl (.Operation hd ops), false)
termination_by e _ => sizeOf e
decreasing_by
  have := List.sizeOf_lt_of_mem op.2
  simp only [Expr.Operation.sizeOf_spec]
  omega

theorem substitute_Symbol (n : String)
    (sub : List (String × (Expr ⊕ List Expr))) :
    substitute (.Symbol n) sub = (Sum.inl (.Symbol n), false) := by
  simp [substitute]

theorem substitute_Variable (n : String)
    (sub : List (String × (Expr ⊕ List Expr))) :
    substitute (.Variable n) sub =
      (match alGet sub n with
       | some repl => (repl, true)
       | none => (Sum.inl (.Variable n), false)) := by
  simp [substitute]

theorem substitute_Operation (hd : String) (ops : List Expr)
    (sub : List (String × (Expr ⊕ List Expr))) :
    substitute (.Operation hd ops) sub =
      (let results := ops.map (fun op => substitute op sub)
       let new_operands := results.flatMap (fun r =>
         match r.1 with
         | Sum.inl e => [e]
         | Sum.inr l => l)
       if results.any (fun r => r.2) then
         (Sum.inl (.Operation hd new_operands), true)
       else (Sum.inl (.Operation hd ops), false)) := by
  rw [substitute]
  simp only [List.map_attach, List.pmap_eq_map]

/-- The claim's invalid-position condition, following its words: a
non-empty position remainder applied to a non-`Operation` node, or a
first index out of range for the node's operand list (for a Python list,
out of range means `>= length` or `< -length`), recursively along the
position. -/
def invalidPosition : Expr → List Int → Bool
  | _, [] => false
  | .Operation _ ops, p :: rest =>
      if (ops.length : Int) ≤ p ∨ p < -(ops.length : Int) then true
      else
        match pyGet ops p with
        | Except.ok sub => invalidPosition sub rest
        | Except.error _ => true
  | _, _ :: _ => true

/-- The variable names occurring in an expression. -/
inductive Occurs : String → Expr → Prop where
  | var (n : String) : Occurs n (.Variable n)
  | op (n : String) (hd : String) (ops : List Expr) (e : Expr) :
      e ∈ ops → Occurs n e → Occurs n (.Operation hd ops)

theorem pyGet_ok {α : Type _} (l : List α) (i : Int)
    (h0 : -(l.length : Int) ≤ i) (h1 : i < (l.length : Int)) :
    pyGet l i = Except.ok (l.get
      ⟨(if i < 0 then i + l.length else i).toNat, by split <;> omega⟩) := by
  simp only [pyGet]
  rw [if_pos (show 0 ≤ (if i < 0 then i + (l.length : Int) else i) ∧
    (if i < 0 then i + (l.length : Int) else i) < (l.length : Int) from by
      constructor <;> split <;> omega)]
  rw [List.getElem?_eq_getElem
    (show (if i < 0 then i + (l.length : Int) else i).toNat < l.length from by
      split <;> omega)]
  rfl

theorem pySet_ok {α : Type _} (l : List α) (i : Int) (a : α)
    (h0 : -(l.length : Int) ≤ i) (h1 : i < (l.length : Int)) :
    pySet l i a =
      Except.ok (l.set (if i < 0 then i + l.length else i).toNat a) := by
  simp only [pySet]
  rw [if_pos (show 0 ≤ (if i < 0 then i + (l.length : Int) else i) ∧
    (if i < 0 then i + (l.length : Int) else i) < (l.length : Int) from by
      constructor <;> split <;> omega)]

theorem pyGet_error {α : Type _} (l : List α) (i : Int)
    (h : i < -(l.length : Int) ∨ (l.length : Int) ≤ i) :
    pyGet l i = Except.error PyErr.indexError := by
  simp only [pyGet]
  rw [if_neg (show ¬ (0 ≤ (if i < 0 then i + (l.length : Int) else i) ∧
    (if i < 0 then i + (l.length : Int) else i) < (l.length : Int)) from by
      rcases h with h | h <;> (intro hc; rcases hc with ⟨hc1, hc2⟩) <;>
        (revert hc1 hc2; split <;> omega))]

theorem pySet_error {α : Type _} (l : List α) (i : Int) (a : α)
    (h : i < -(l.length : Int) ∨ (l.length : Int) ≤ i) :
    pySet l i a = Except.error PyErr.indexError := by
  simp only [pySet]
  rw [if_neg (show ¬ (0 ≤ (if i < 0 then i + (l.length : Int) else i) ∧
    (if i < 0 then i + (l.length : Int) else i) < (l.length : Int)) from by
      rcases h with h | h <;> (intro hc; rcases hc with ⟨hc1, hc2⟩) <;>
        (revert hc1 hc2; split <;> omega))]

theorem pyGet_error_val {α : Type _} (l : List α) (i : Int) (er : PyErr)
    (h : pyGet l i = Except.error er) : er = PyErr.indexError := by
  by_cases hc : i < -(l.length : Int) ∨ (l.length : Int) ≤ i
  · rw [pyGet_error l i hc] at h
    injection h with h
    exact h.symm
  · push_neg at hc
    rw [pyGet_ok l i (by omega) (by omega)] at h
    cases h

theorem pySet_error_val {α : Type _} (l : List α) (i : Int) (a : α)
    (er : PyErr) (h : pySet l i a = Except.error er) :
    er = PyErr.indexError := by
  by_cases hc : i < -(l.length : Int) ∨ (l.length : Int) ≤ i
  · rw [pySet_error l i a hc] at h
    injection h with h
    exact h.symm
  · push_neg at hc
    rw [pySet_ok l i a (by omega) (by omega)] at h
    cases h

theorem replace_error_val :
    ∀ (pos : List Int) (e : Expr) (repl : Expr ⊕ List Expr) (er : PyErr),
      replace e pos repl = Except.error er → er = PyErr.indexError := by
  intro pos
  induction pos with
  | nil =>
      intro e repl er h
      cases e <;> cases h
  | cons p rest ih =>
      intro e repl er h
      cases e with
      | Symbol n =>
          injection h with h
          exact h.symm
      | Variable n =>
          injection h with h
          exact h.symm
      | Operation hd ops =>
          simp only [replace] at h
          split at h
          · injection h with h
            exact h.symm
          · split at h
            · rename_i e1 hpg
              injection h with h
              exact (h ▸ pyGet_error_val ops p e1 hpg)
            · rename_i sub hpg
              split at h
              · rename_i e2 hrec
                injection h with h
                exact (h ▸ ih sub repl e2 hrec)
              · cases h
              · rename_i e2 hrec
                split at h
                · rename_i e3 hset
                  injection h with h
                  exact (h ▸ pySet_error_val ops p e2 e3 hset)
                · cases h

theorem expr_sizeOf_pos (e : Expr) : 0 < sizeOf e := by
  cases e <;> simp

theorem substitute_no_occurs_aux :
    ∀ (k : Nat) (e : Expr), sizeOf e ≤ k →
      ∀ (sub : List (String × (Expr ⊕ List Expr))),
        (∀ n, Occurs n e → alGet sub n = none) →
        substitute e sub = (Sum.inl e, false) := by
  intro k
  induction k with
  | zero =>
      intro e hsz
      exact absurd hsz (by have := expr_sizeOf_pos e; omega)
  | succ k ih =>
      intro e hsz sub hocc
      cases e with
      | Symbol n => exact substitute_Symbol n sub
      | Variable n =>
          rw [substitute_Variable, hocc n (Occurs.var n)]
      | Operation hd ops =>
          rw [substitute_Operation]
          have hops : ∀ op ∈ ops, substitute op sub = (Sum.inl op, false) := by
            intro op hop
            refine ih op ?_ sub ?_
            · have h1 := List.sizeOf_lt_of_mem hop
              have h2 : sizeOf (Expr.Operation hd ops) =
                  1 + sizeOf hd + sizeOf ops := by simp
              omega
            · intro n hn
              exact hocc n (Occurs.op n hd ops op hop hn)
          rw [List.map_congr_left hops]
          simp

theorem replace_errorIff :
    ∀ (pos : List Int) (e : Expr) (repl : Expr ⊕ List Expr),
      (replace e pos repl = Except.error PyErr.indexError ↔
        invalidPosition e pos = true) := by
  intro pos
  induction pos with
  | nil =>
      intro e repl
      constructor
      · intro h
        cases e <;> cases h
      · intro h
        rw [show invalidPosition e [] = false from by cases e <;> rfl] at h
        cases h
  | cons p rest ih =>
      intro e repl
      cases e with
      | Symbol n => simp [replace, invalidPosition]
      | Variable n => simp [replace, invalidPosition]
      | Operation hd ops =>
          simp only [replace, invalidPosition]
          by_cases hge : (ops.length : Int) ≤ p
          · rw [if_pos (show p ≥ (ops.length : Int) from hge),
              if_pos (Or.inl hge)]
            exact iff_of_true rfl rfl
          · rw [if_neg (show ¬ p ≥ (ops.length : Int) from hge)]
            by_cases hlt : p < -(ops.length : Int)
            · rw [pyGet_error ops p (Or.inl hlt), if_pos (Or.inr hlt)]
              simp
            · rw [if_neg (show ¬ ((ops.length : Int) ≤ p ∨
                p < -(ops.length : Int)) from by omega)]
              obtain ⟨sub, hsub⟩ : ∃ sub, pyGet ops p = Except.ok sub :=
                ⟨_, pyGet_ok ops p (by omega) (by omega)⟩
              rw [hsub]
              simp only []
              cases hrec : replace sub rest repl with
              | error e2 =>
                  have he2 := replace_error_val rest sub repl e2 hrec
                  subst he2
                  exact iff_of_true rfl ((ih sub repl).mp hrec)
              | ok r =>
                  cases hip : invalidPosition sub rest with
                  | true =>
                      have hcon := (ih sub repl).mpr hip
                      rw [hrec] at hcon
                      cases hcon
                  | false =>
                      cases r with
                      | inr l =>
                          refine iff_of_false ?_ ?_
                          · intro hc
                            cases hc
                          · intro hc
                            cases hc
                      | inl e2 =>
                          simp only []
                          rw [pySet_ok ops p e2 (by omega) (by omega)]
                          refine iff_of_false ?_ ?_
                          · intro hc
                            cases hc
                          · intro hc
                            cases hc

/-- **C6.** `replace(expression, position, replacement)` returns
`replacement` directly when `position` is the empty sequence; it raises an
invalid-position `IndexError` exactly when a non-empty position remainder
is applied to a non-`Operation` node or a first index is out of range for
the node's operand list; otherwise it returns a rebuilt tree in which a
list-valued replacement is spliced into the parent's operand list, e.g.
`replace(f(a), (0,), [b, c]) = f(b, c)`. -/
theorem claim_C6_replace :
    (∀ (e : Expr) (repl : Expr ⊕ List Expr),
      replace e [] repl = Except.ok repl) ∧
    (∀ (e : Expr) (pos : List Int) (repl : Expr ⊕ List Expr),
      replace e pos repl = Except.error PyErr.indexError ↔
        invalidPosition e pos = true) ∧
    (∀ (hd : String) (ops : List Expr) (p : Int) (l : List Expr),
      0 ≤ p → p < (ops.length : Int) →
      replace (.Operation hd ops) [p] (Sum.inr l) =
        Except.ok (Sum.inl (.Operation hd
          (ops.take p.toNat ++ l ++ ops.drop (p.toNat + 1))))) ∧
    replace (.Operation ("f") [.Symbol ("a")]) [0]
        (Sum.inr [.Symbol ("b"), .Symbol ("c")]) =
      Except.ok (Sum.inl (.Operation ("f")
        [.Symbol ("b"), .Symbol ("c")])) := by
  refine ⟨?_, ?_, ?_, rfl⟩
  · intro e repl
    cases e <;> rfl
  · intro e pos repl
    exact replace_errorIff pos e repl
  · intro hd ops p l hp0 hplen
    simp only [replace]
    rw [if_neg (show ¬ p ≥ (ops.length : Int) from not_le.mpr hplen)]
    rw [pyGet_ok ops p (by omega) hplen]
    simp only []
    have hto : pySliceTo ops p = ops.take p.toNat := by
      simp only [pySliceTo]
      rw [if_neg (not_lt.mpr hp0)]
    have hfrom : pySliceFrom ops (p + 1) = ops.drop (p.toNat + 1) := by
      simp only [pySliceFrom]
      rw [if_neg (show ¬ p + 1 < 0 from by omega),
        show (p + 1).toNat = p.toNat + 1 from by omega]
    rw [hto, hfrom]

/-- Witness for C6: splicing a list replacement at index 1 of `g(a, b)`
yields `g(a, c, d)`. -/
theorem claim_C6_witness :
    replace (.Operation ("g") [.Symbol ("a"), .Symbol ("b")]) [1]
        (Sum.inr [.Symbol ("c"), .Symbol ("d")]) =
      Except.ok (Sum.inl (.Operation ("g")
        [.Symbol ("a"), .Symbol ("c"), .Symbol ("d")])) := by
  have h := claim_C6_replace.2.2.1 ("g") [.Symbol ("a"), .Symbol ("b")] 1
    [.Symbol ("c"), .Symbol ("d")] (by decide) (by decide)
  simpa using h

/-- **C7.** For every expression and substitution, if no variable
occurring in the expression has its name as a key of the substitution,
`substitute` returns the identical original expression with
`changed = false`; and when a variable is bound to a sequence of
expressions inside an operation's operands, the sequence elements are
spliced individually into the rebuilt operand list:
`substitute(f(x, c), {x: [a, b]}) = (f(a, b, c), true)`. -/
theorem claim_C7_substitute :
    (∀ (e : Expr) (sub : List (String × (Expr ⊕ List Expr))),
      (∀ n, Occurs n e → alGet sub n = none) →
      substitute e sub = (Sum.inl e, false)) ∧
    substitute (.Operation ("f") [.Variable ("x"), .Symbol ("c")])
        [(("x" : String), Sum.inr [.Symbol ("a"), .Symbol ("b")])] =
      (Sum.inl (.Operation ("f")
        [.Symbol ("a"), .Symbol ("b"), .Symbol ("c")]), true) := by
  constructor
  · intro e sub hocc
    exact substitute_no_occurs_aux (sizeOf e) e le_rfl sub hocc
  · simp [substitute_Operation, substitute_Variable, substitute_Symbol, alGet]

/-- Witness for C7: the substitution `{x: [a]}` does not touch the
expression `f(y)`, whose only variable is `y`. -/
theorem claim_C7_witness :
    substitute (.Operation ("f") [.Variable ("y")])
        [(("x" : String), Sum.inr [.Symbol ("a")])] =
      (Sum.inl (.Operation ("f") [.Variable ("y")]), false) :=
  claim_C7_substitute.1 (.Operation ("f") [.Variable ("y")])
    [(("x" : String), Sum.inr [.Symbol ("a")])]
    (by
      intro n hn
      cases hn with
      | op _ _ e hmem hocc =>
          rw [List.mem_singleton] at hmem
          subst hmem
          cases hocc
          simp [alGet])

/-- **C10.** For every `Operation` node with at least one operand and
every single expression replacement, `replace` with position `(-1,)` does
not raise an invalid-position error: the bounds check only rejects first
indices at least the operand count, so the negative first index selects
from the end of the operand list and `(-1,)` replaces the last
operand. -/
theorem claim_C10_replace_negative (hd : String) (ops : List Expr)
    (e : Expr) (hne : ops ≠ []) :
    replace (.Operation hd ops) [-1] (Sum.inl e) =
      Except.ok (Sum.inl (.Operation hd (ops.set (ops.length - 1) e))) := by
  have hlen : 1 ≤ ops.length := List.length_pos.mpr hne
  simp only [replace]
  rw [if_neg (show ¬ (-1 : Int) ≥ (ops.length : Int) from by omega)]
  rw [pyGet_ok ops (-1) (by omega) (by omega)]
  simp only []
  rw [pySet_ok ops (-1) e (by omega) (by omega)]
  rw [show (if (-1 : Int) < 0 then (-1 : Int) + ops.length
    else (-1 : Int)).toNat = ops.length - 1 from by
      rw [if_pos (show (-1 : Int) < 0 from by omega)]
      omega]

/-- Witness for C10: `replace(f(a, b), (-1,), c) = f(a, c)`. -/
theorem claim_C10_witness :
    replace (.Operation ("f") [.Symbol ("a"), .Symbol ("b")]) [-1]
        (Sum.inl (.Symbol ("c"))) =
      Except.ok (Sum.inl (.Operation ("f")
        [.Symbol ("a"), .Symbol ("c")])) := by
  have h := claim_C10_replace_negative ("f") [.Symbol ("a"), .Symbol ("b")]
    (.Symbol ("c")) (by intro hc; cases hc)
  simpa using h
